import Mathlib

/-!
# Verification of the hackathon topic-voting tool (`tools/voting/main.go`)

The Go program is embedded shallowly.  Remote API calls are oracles passed as
arguments, effects (log lines, printed lines, API calls) are recorded in an
event trace, and `sort.Slice` is embedded as the pattern-defeating quicksort
of Go's `sort` package (`zsortfunc.go`, Go 1.19 and later), operating on a
slice seen as a map from indices to elements.
-/

namespace Voting

/-! ## Go's `sort.Slice` (package `sort`, `zsortfunc.go`) -/

section SortModel

variable {α : Type}

/-- The call `data.Swap(i, j)` on a slice seen as an index-to-element map. -/
def swap (d : Nat → α) (i j : Nat) : Nat → α :=
  fun k => if k = i then d j else if k = j then d i else d k

/-- The call `data.Less(i, j)`: the user closure compares the elements that are
currently stored at positions `i` and `j`. -/
def Less (less : α → α → Bool) (d : Nat → α) (i j : Nat) : Bool :=
  less (d i) (d j)

/-- Inner loop of `insertionSort_func`:
`for j := i; j > a && data.Less(j, j-1); j-- { data.Swap(j, j-1) }`,
by recursion on the loop variable `j`. -/
def insertionShift (less : α → α → Bool) (a : Nat) : Nat → (Nat → α) → (Nat → α)
  | 0, d => d
  | j + 1, d =>
    if j + 1 > a && Less less d (j + 1) j then
      insertionShift less a j (swap d (j + 1) j)
    else d

/-- Outer loop of `insertionSort_func`: `for i := a + 1; i < b; i++`, the first
argument counts the remaining iterations `b - i`. -/
def insertionLoop (less : α → α → Bool) (a : Nat) : Nat → Nat → (Nat → α) → (Nat → α)
  | 0, _, d => d
  | n + 1, i, d => insertionLoop less a n (i + 1) (insertionShift less a i d)

/-- Go `insertionSort_func(data, a, b)`: sorts `data[a:b]` using insertion sort. -/
def insertionSort_func (less : α → α → Bool) (d : Nat → α) (a b : Nat) : Nat → α :=
  insertionLoop less a (b - (a + 1)) (a + 1) d

/-- Loop of `siftDown_func`; `root` strictly grows and stays below `hi`, so `hi`
iterations are never exceeded. -/
def siftDownLoop (less : α → α → Bool) (hi first : Nat) :
    Nat → Nat → (Nat → α) → (Nat → α)
  | 0, _, d => d
  | n + 1, root, d =>
    let child := 2 * root + 1
    if child ≥ hi then d
    else
      let child :=
        if child + 1 < hi && Less less d (first + child) (first + child + 1) then child + 1
        else child
      if !Less less d (first + root) (first + child) then d
      else siftDownLoop less hi first n child (swap d (first + root) (first + child))

/-- Go `siftDown_func(data, lo, hi, first)`. -/
def siftDown_func (less : α → α → Bool) (d : Nat → α) (lo hi first : Nat) : Nat → α :=
  siftDownLoop less hi first hi lo d

/-- First loop of `heapSort_func`: `for i := (hi - 1) / 2; i >= 0; i--`; the
argument is `i + 1`. -/
def heapBuild (less : α → α → Bool) (hi first : Nat) : Nat → (Nat → α) → (Nat → α)
  | 0, d => d
  | i + 1, d => heapBuild less hi first i (siftDown_func less d i hi first)

/-- Second loop of `heapSort_func`: `for i := hi - 1; i >= 0; i--`; the argument
is `i + 1`. -/
def heapPop (less : α → α → Bool) (first : Nat) : Nat → (Nat → α) → (Nat → α)
  | 0, d => d
  | i + 1, d =>
    heapPop less first i (siftDown_func less (swap d first (first + i)) 0 i first)

/-- Go `heapSort_func(data, a, b)`. -/
def heapSort_func (less : α → α → Bool) (d : Nat → α) (a b : Nat) : Nat → α :=
  let first := a
  let hi := b - a
  heapPop less first hi (heapBuild less hi first ((hi - 1) / 2 + 1) d)

/-- Loop `for i <= j && p(i) { i++ }` of the partition routines; the first
argument bounds the remaining distance `j + 1 - i`. -/
def scanUp (p : Nat → Bool) (j : Nat) : Nat → Nat → Nat
  | 0, i => i
  | n + 1, i => if i ≤ j && p i then scanUp p j n (i + 1) else i

/-- Loop `for i <= j && p(j) { j-- }` of the partition routines, by recursion on
the loop variable `j`.  Every caller has `i ≥ 1`, so `j` stops at `i - 1 ≥ 0` at
the latest. -/
def scanDown (p : Nat → Bool) (i : Nat) : Nat → Nat
  | 0 => 0
  | j + 1 => if i ≤ j + 1 && p (j + 1) then scanDown p i j else j + 1

/-- The `for { ... }` loop shared by `partition_func` and `partitionEqual_func`:
scan `i` up while `inL data[i] data[a]`, scan `j` down while `inR data[j] data[a]`,
stop when `i > j`, else swap and move both.  For `partition_func` the tests are
`data.Less(i, a)` and `!data.Less(j, a)`, for `partitionEqual_func` they are
`!data.Less(a, i)` and `data.Less(a, j)`.  Each round shrinks `j + 1 - i` by two;
the first argument bounds the number of rounds, `none` when it is used up.
Returns the data and the final `i` and `j`. -/
def partitionRounds (inL inR : α → α → Bool) (a : Nat) :
    Nat → (Nat → α) → Nat → Nat → Option ((Nat → α) × Nat × Nat)
  | 0, _, _, _ => none
  | n + 1, d, i, j =>
    let i := scanUp (fun k => inL (d k) (d a)) j (j + 1 - i) i
    let j := scanDown (fun k => inR (d k) (d a)) i j
    if i > j then some (d, i, j)
    else partitionRounds inL inR a n (swap d i j) (i + 1) (j - 1)

/-- Go `partition_func(data, a, b, pivot)`: returns the data, `newpivot` and
`alreadyPartitioned`. -/
def partition_func (less : α → α → Bool) (d : Nat → α) (a b pivot : Nat) :
    Option ((Nat → α) × Nat × Bool) :=
  let d := swap d a pivot
  let i := a + 1
  let j := b - 1
  let i := scanUp (fun k => Less less d k a) j (j + 1 - i) i
  let j := scanDown (fun k => !Less less d k a) i j
  if i > j then some (swap d j a, j, true)
  else
    let d := swap d i j
    match partitionRounds (fun x p => less x p) (fun x p => !less x p) a (b - a) d
        (i + 1) (j - 1) with
    | none => none
    | some (d, _, j) => some (swap d j a, j, false)

/-- Go `partitionEqual_func(data, a, b, pivot)`: returns the data and `newpivot`. -/
def partitionEqual_func (less : α → α → Bool) (d : Nat → α) (a b pivot : Nat) :
    Option ((Nat → α) × Nat) :=
  match partitionRounds (fun x p => !less p x) (fun x p => less p x) a (b - a + 1)
      (swap d a pivot) (a + 1) (b - 1) with
  | none => none
  | some (d, i, _) => some (d, i)

/-- Loop `for j := i + 1; j < b; j++ { if !data.Less(j, j-1) { break }; data.Swap(j, j-1) }`
of `partialInsertionSort_func`; the first argument is the distance `b - j`. -/
def shiftRight (less : α → α → Bool) (b : Nat) : Nat → Nat → (Nat → α) → (Nat → α)
  | 0, _, d => d
  | n + 1, j, d =>
    if j < b && Less less d j (j - 1) then shiftRight less b n (j + 1) (swap d j (j - 1))
    else d

/-- Loop `for i < b && !data.Less(i, i-1) { i++ }` of `partialInsertionSort_func`;
the first argument is the distance `b - i`. -/
def scanRun (less : α → α → Bool) (b : Nat) (d : Nat → α) : Nat → Nat → Nat
  | 0, i => i
  | n + 1, i => if i < b && !Less less d i (i - 1) then scanRun less b d n (i + 1) else i

/-- Outer loop `for j := 0; j < maxSteps; j++` of `partialInsertionSort_func`; the
first argument is the number of remaining steps. -/
def partialInsertionLoop (less : α → α → Bool) (a b : Nat) :
    Nat → Nat → (Nat → α) → (Nat → α) × Bool
  | 0, _, d => (d, false)
  | n + 1, i, d =>
    let i := scanRun less b d (b - i) i
    if i = b then (d, true)
    else if b - a < 50 then (d, false)
    else
      let d := swap d i (i - 1)
      -- Shift the smaller one to the left: `for j := i - 1; j >= 1; j--`.
      let d := if i - a ≥ 2 then insertionShift less 0 (i - 1) d else d
      -- Shift the greater one to the right.
      let d := if b - i ≥ 2 then shiftRight less b (b - (i + 1)) (i + 1) d else d
      partialInsertionLoop less a b n i d

/-- Go `partialInsertionSort_func(data, a, b)`: returns the data and whether the
slice is sorted at the end. -/
def partialInsertionSort_func (less : α → α → Bool) (d : Nat → α) (a b : Nat) :
    (Nat → α) × Bool :=
  partialInsertionLoop less a b 5 (a + 1) d

/-- Go `bits.Len`, by halving; the first argument bounds the number of halvings. -/
def bitsLenAux : Nat → Nat → Nat
  | 0, _ => 0
  | f + 1, n => if n = 0 then 0 else 1 + bitsLenAux f (n / 2)

/-- Go `bits.Len(uint(n))`: the number of bits needed to represent `n`. -/
def bitsLen (n : Nat) : Nat := bitsLenAux n n

/-- Go `nextPowerOfTwo(length)`: `1 << bits.Len(uint(length))`. -/
def nextPowerOfTwo (length : Nat) : Nat := 2 ^ bitsLen length

/-- Go `(*xorshift).Next` on a `uint64` state. -/
def xorshiftNext (r : Nat) : Nat :=
  let r := (r ^^^ (r <<< 13)) % 2 ^ 64
  let r := r ^^^ (r >>> 7)
  (r ^^^ (r <<< 17)) % 2 ^ 64

/-- One round of the loop of `breakPatterns_func` for the random value `r`. -/
def breakPatternsStep (d : Nat → α) (a length modulus idx i r : Nat) : Nat → α :=
  let other := r &&& (modulus - 1)
  let other := if other ≥ length then other - length else other
  swap d (idx - 1 + i) (a + other)

/-- Go `breakPatterns_func(data, a, b)`. -/
def breakPatterns_func (d : Nat → α) (a b : Nat) : Nat → α :=
  let length := b - a
  if length ≥ 8 then
    let modulus := nextPowerOfTwo length
    let idx := a + (length / 4) * 2 - 1
    let r1 := xorshiftNext length
    let r2 := xorshiftNext r1
    let r3 := xorshiftNext r2
    let d := breakPatternsStep d a length modulus idx 0 r1
    let d := breakPatternsStep d a length modulus idx 1 r2
    breakPatternsStep d a length modulus idx 2 r3
  else d

/-- Go `sortedHint`. -/
inductive sortedHint
  | unknownHint
  | increasingHint
  | decreasingHint
  deriving DecidableEq, Repr

/-- Go `order2_func(data, a, b, swaps)`: returns `(x, y, swaps)`. -/
def order2_func (less : α → α → Bool) (d : Nat → α) (a b swaps : Nat) : Nat × Nat × Nat :=
  if Less less d b a then (b, a, swaps + 1) else (a, b, swaps)

/-- Go `median_func(data, a, b, c, swaps)`: returns the index and `swaps`. -/
def median_func (less : α → α → Bool) (d : Nat → α) (a b c swaps : Nat) : Nat × Nat :=
  let r1 := order2_func less d a b swaps
  let r2 := order2_func less d r1.2.1 c r1.2.2
  let r3 := order2_func less d r1.1 r2.1 r2.2.2
  (r3.2.1, r3.2.2)

/-- Go `medianAdjacent_func(data, a, swaps)`. -/
def medianAdjacent_func (less : α → α → Bool) (d : Nat → α) (a swaps : Nat) : Nat × Nat :=
  median_func less d (a - 1) a (a + 1) swaps

/-- Go `choosePivot_func(data, a, b)`. -/
def choosePivot_func (less : α → α → Bool) (d : Nat → α) (a b : Nat) : Nat × sortedHint :=
  let l := b - a
  let i := a + l / 4 * 1
  let j := a + l / 4 * 2
  let k := a + l / 4 * 3
  let r :=
    if l ≥ 8 then
      if l ≥ 50 then
        let ri := medianAdjacent_func less d i 0
        let rj := medianAdjacent_func less d j ri.2
        let rk := medianAdjacent_func less d k rj.2
        median_func less d ri.1 rj.1 rk.1 rk.2
      else median_func less d i j k 0
    else (j, 0)
  if r.2 = 0 then (r.1, sortedHint.increasingHint)
  else if r.2 = 4 * 3 then (r.1, sortedHint.decreasingHint)
  else (r.1, sortedHint.unknownHint)

/-- Loop of `reverseRange_func`: `for i < j { data.Swap(i, j); i++; j-- }`; the
first argument bounds the distance `j - i`. -/
def reverseLoop : Nat → Nat → Nat → (Nat → α) → (Nat → α)
  | 0, _, _, d => d
  | n + 1, i, j, d => if i < j then reverseLoop n (i + 1) (j - 1) (swap d i j) else d

/-- Go `reverseRange_func(data, a, b)`. -/
def reverseRange_func (d : Nat → α) (a b : Nat) : Nat → α :=
  reverseLoop (b - a) a (b - 1) d

/-- The part of one round of the `for` loop of `pdqsort_func` that precedes
partitioning (after the `length <= maxInsertion` and `limit == 0` exits):
`breakPatterns_func` and `limit--` after an unbalanced round, `choosePivot_func`,
the reversal on `decreasingHint`, and `partialInsertionSort_func` when the slice
is likely sorted.  Returns the data, the pivot, the limit and whether
`partialInsertionSort_func` reported the slice sorted (the loop then returns). -/
def pdqsortPrepare (less : α → α → Bool) (d : Nat → α) (a b limit : Nat)
    (wasBalanced wasPartitioned : Bool) : (Nat → α) × Nat × Nat × Bool :=
  let d := if !wasBalanced then breakPatterns_func d a b else d
  let limit := if !wasBalanced then limit - 1 else limit
  let ph := choosePivot_func less d a b
  let dec := decide (ph.2 = sortedHint.decreasingHint)
  let d := if dec then reverseRange_func d a b else d
  let pivot := if dec then (b - 1) - (ph.1 - a) else ph.1
  let hint := if dec then sortedHint.increasingHint else ph.2
  let tryPartial := wasBalanced && wasPartitioned && decide (hint = sortedHint.increasingHint)
  let ps := if tryPartial then partialInsertionSort_func less d a b else (d, false)
  (ps.1, pivot, limit, ps.2)

/-- Go `pdqsort_func(data, a, b, limit)` with the loop state `wasBalanced`,
`wasPartitioned` as arguments (both start as `true` in every call).  Every
round of the `for` loop shrinks `b - a`; the first argument bounds the number
of rounds and nested calls, `none` when it is used up. -/
def pdqsortLoop (less : α → α → Bool) :
    Nat → (Nat → α) → Nat → Nat → Nat → Bool → Bool → Option (Nat → α)
  | 0, _, _, _, _, _, _ => none
  | fuel + 1, d, a, b, limit, wasBalanced, wasPartitioned =>
    let length := b - a
    if length ≤ 12 then some (insertionSort_func less d a b)
    else if limit = 0 then some (heapSort_func less d a b)
    else
      let pre := pdqsortPrepare less d a b limit wasBalanced wasPartitioned
      let d := pre.1
      let pivot := pre.2.1
      let limit := pre.2.2.1
      if pre.2.2.2 then some d
      else if decide (a > 0) && !Less less d (a - 1) pivot then
        -- many duplicates: partition into equal and greater elements
        match partitionEqual_func less d a b pivot with
        | none => none
        | some (d, mid) => pdqsortLoop less fuel d mid b limit wasBalanced wasPartitioned
      else
        match partition_func less d a b pivot with
        | none => none
        | some (d, mid, alreadyPartitioned) =>
          let leftLen := mid - a
          let rightLen := b - mid
          let balanceThreshold := length / 8
          if leftLen < rightLen then
            match pdqsortLoop less fuel d a mid limit true true with
            | none => none
            | some d =>
              pdqsortLoop less fuel d (mid + 1) b limit
                (decide (leftLen ≥ balanceThreshold)) alreadyPartitioned
          else
            match pdqsortLoop less fuel d (mid + 1) b limit true true with
            | none => none
            | some d =>
              pdqsortLoop less fuel d a mid limit
                (decide (rightLen ≥ balanceThreshold)) alreadyPartitioned

/-- Go `pdqsort_func(data, a, b, limit)`. -/
def pdqsort_func (less : α → α → Bool) (d : Nat → α) (a b limit : Nat) : Option (Nat → α) :=
  pdqsortLoop less (b - a + 1) d a b limit true true

/-- Go `sort.Slice(x, less)`: `pdqsort_func(lessSwap, 0, length, bits.Len(length))`
on the slice `x`, returning the slice contents afterwards (`none` only if the
round bound of the model were used up). -/
def sortSlice (less : α → α → Bool) (x : List α) : Option (List α) :=
  match x with
  | [] => some []
  | e :: _ =>
    let length := x.length
    match pdqsort_func less (fun i => x.getD i e) 0 length (bitsLen length) with
    | none => none
    | some d => some ((List.range length).map d)

end SortModel


/-! ## Data model (`go-github` types, restricted to the fields the tool reads) -/

/-- Go `votingCommentMarker`. -/
def votingCommentMarker : String := "<!-- hackathon-voting-comment -->"

/-- Go `votingEmoji`. -/
def votingEmoji : String := "+1"

/-- The `github.Issue` fields read by the tool; `PullRequestLinks` is `none` for
a nil pointer. -/
structure Issue where
  Number : Int
  Title : String
  PullRequestLinks : Option String
  deriving DecidableEq, Repr

/-- The `github.IssueComment` fields read by the tool; `Body` is `none` for a
nil pointer. -/
structure IssueComment where
  ID : Int
  Body : Option String
  deriving DecidableEq, Repr

/-- The `github.Reaction` field read by the tool; `Content` is `none` for a nil
pointer. -/
structure Reaction where
  Content : Option String
  deriving DecidableEq, Repr

/-- Go `issueVote`: an issue with its vote count. -/
structure issueVote where
  issue : Issue
  votes : Int
  deriving DecidableEq, Repr

/-- Go `github.ListOptions`; `Page = 0` is the unset page (the first one). -/
structure ListOptions where
  Page : Nat
  PerPage : Nat
  deriving DecidableEq, Repr

/-- Go `github.IssueListByRepoOptions`, the fields the tool sets. -/
structure IssueListByRepoOptions where
  State : String
  Labels : List String
  ListOptions : ListOptions
  deriving DecidableEq, Repr

/-- Go `github.Response`, the field the tool reads. -/
structure Response where
  NextPage : Nat
  deriving DecidableEq, Repr

/-- The remote API as seen through `*github.Client`: what each call answers
(`Except.error` carries the text of the Go `error`). -/
structure Client where
  ListByRepo : String → String → IssueListByRepoOptions →
    Except String (List Issue × Response)
  ListComments : String → String → Int → ListOptions → Except String (List IssueComment)
  CreateComment : String → String → Int → String → Except String IssueComment
  ListIssueCommentReactions : String → String → Int → ListOptions →
    Except String (List Reaction)

/-- Observable effects, in program order: remote API calls, `log` lines,
`fmt.Println` lines, and the line of a `log.Fatal` (which exits with status 1). -/
inductive Event
  | apiListByRepo (owner repo : String) (opts : IssueListByRepoOptions)
  | apiListComments (owner repo : String) (number : Int) (opts : ListOptions)
  | apiCreateComment (owner repo : String) (number : Int) (body : String)
  | apiListReactions (owner repo : String) (commentID : Int) (opts : ListOptions)
  | log (line : String)
  | println (line : String)
  | fatal (line : String)
  deriving DecidableEq, Repr

/-- Whether the event is a call to the remote API. -/
def Event.isApiCall : Event → Bool
  | .apiListByRepo _ _ _ => true
  | .apiListComments _ _ _ _ => true
  | .apiCreateComment _ _ _ _ => true
  | .apiListReactions _ _ _ _ => true
  | _ => false

/-- The lines written by `fmt.Println`, in order. -/
def printed (ev : List Event) : List String :=
  ev.filterMap (fun e => match e with
    | .println line => some line
    | _ => none)

/-- The bodies of the comments the run asked the remote to create, in order. -/
def createdBodies (ev : List Event) : List String :=
  ev.filterMap (fun e => match e with
    | .apiCreateComment _ _ _ body => some body
    | _ => none)

/-- Go `%d` for an `int`. -/
def fmtD (n : Int) : String := toString n

/-- Go `strings.Contains` on character sequences: `substr` starts at some
position of `s`. -/
def containsChars : List Char → List Char → Bool
  | [], substr => substr.isPrefixOf []
  | c :: s, substr => substr.isPrefixOf (c :: s) || containsChars s substr

/-- Go `strings.Contains(s, substr)`. -/
def stringsContains (s substr : String) : Bool :=
  containsChars s.data substr.data

/-- The test `comment.Body != nil && strings.Contains(*comment.Body, votingCommentMarker)`
of `addVotingComment` and `countVotes`. -/
def isVotingComment (comment : IssueComment) : Bool :=
  match comment.Body with
  | none => false
  | some body => stringsContains body votingCommentMarker

/-! ## The tool (`tools/voting/main.go`) -/

/-- Inner loop of `getOpenIssues`: `for _, issue := range issues`, appending the
issues whose `PullRequestLinks` is nil. -/
def appendNonPullRequests (allIssues : List Issue) (issues : List Issue) : List Issue :=
  issues.foldl
    (fun acc issue => if issue.PullRequestLinks = none then acc ++ [issue] else acc)
    allIssues

/-- The `for` loop of `getOpenIssues`.  The loop runs until the remote answers
`NextPage == 0`; the first argument bounds the number of pages requested, `none`
when it is used up. -/
def getOpenIssuesLoop (client : Client) (owner repo : String) :
    Nat → IssueListByRepoOptions → List Issue → List Event →
      Option (Except String (List Issue) × List Event)
  | 0, _, _, _ => none
  | fuel + 1, opts, allIssues, ev =>
    let ev := ev ++ [Event.apiListByRepo owner repo opts]
    match client.ListByRepo owner repo opts with
    | .error err => some (.error err, ev)
    | .ok (issues, resp) =>
      let allIssues := appendNonPullRequests allIssues issues
      if resp.NextPage = 0 then some (.ok allIssues, ev)
      else
        getOpenIssuesLoop client owner repo fuel
          { opts with ListOptions := { opts.ListOptions with Page := resp.NextPage } }
          allIssues ev

/-- The options `getOpenIssues` starts from. -/
def getOpenIssuesOpts (label : String) : IssueListByRepoOptions :=
  { State := "open"
    Labels := if label ≠ "" then [label] else []
    ListOptions := { Page := 0, PerPage := 100 } }

/-- Go `getOpenIssues`: retrieves all open issues with the specified label. -/
def getOpenIssues (client : Client) (owner repo label : String) (fuel : Nat) :
    Option (Except String (List Issue) × List Event) :=
  getOpenIssuesLoop client owner repo fuel (getOpenIssuesOpts label) [] []

/-- The loop `for _, comment := range comments` of `addVotingComment`: whether it
returns early on a comment carrying the marker. -/
def hasVotingComment : List IssueComment → Bool
  | [] => false
  | comment :: rest => if isVotingComment comment then true else hasVotingComment rest

/-- The body of the voting comment: `fmt.Sprintf` of the template with
`votingCommentMarker`. -/
def commentBody : String :=
  votingCommentMarker ++
    "\n\n## \uF8FF\u00FC\u00F3\u2265\u00D4\u220F\u00E8 Vote for this Topic!\n\nIf you\x27re interested in working on this topic during the hackathon, please react to this comment with a \uF8FF\u00FC\u00EB\u00E7 (thumbs up) emoji.\n\n**How to vote:**\n1. Click the smiley face icon below this comment\n2. Select the \uF8FF\u00FC\u00EB\u00E7 reaction\n\nThe topics with the most votes will help us prioritize and form teams!\n\n---\n*This is an automated voting comment. Votes are counted based on \uF8FF\u00FC\u00EB\u00E7 reactions to this comment.*\n"

/-- Go `addVotingComment`: adds a voting comment to an issue if one doesn't
already exist. -/
def addVotingComment (client : Client) (owner repo : String) (issue : Issue) :
    Except String Unit × List Event :=
  let opts : ListOptions := { Page := 0, PerPage := 100 }
  let ev := [Event.apiListComments owner repo issue.Number opts]
  match client.ListComments owner repo issue.Number opts with
  | .error err => (.error ("failed to list comments: " ++ err), ev)
  | .ok comments =>
    if hasVotingComment comments then
      (.ok (), ev ++ [Event.log ("Voting comment already exists on issue #" ++
        fmtD issue.Number)])
    else
      let ev := ev ++ [Event.apiCreateComment owner repo issue.Number commentBody]
      match client.CreateComment owner repo issue.Number commentBody with
      | .error err => (.error ("failed to create comment: " ++ err), ev)
      | .ok comment =>
        (.ok (), ev ++ [Event.log ("Created voting comment (ID: " ++ fmtD comment.ID ++
          ") - Note: Pin this comment manually")])

/-- The loop `for _, reaction := range reactions` of `countVotes`. -/
def countThumbsUp (reactions : List Reaction) : Int :=
  reactions.foldl
    (fun count reaction => if reaction.Content = some votingEmoji then count + 1 else count)
    0

/-- The loop `for _, comment := range comments` of `countVotes`, with the
`return 0, nil` after it. -/
def countVotesScan (client : Client) (owner repo : String) :
    List IssueComment → Except String Int × List Event
  | [] => (.ok 0, [])
  | comment :: rest =>
    if isVotingComment comment then
      let opts : ListOptions := { Page := 0, PerPage := 100 }
      let ev := [Event.apiListReactions owner repo comment.ID opts]
      match client.ListIssueCommentReactions owner repo comment.ID opts with
      | .error err => (.error ("failed to list reactions: " ++ err), ev)
      | .ok reactions => (.ok (countThumbsUp reactions), ev)
    else countVotesScan client owner repo rest

/-- Go `countVotes`: counts the thumbs up reactions on the voting comment of an
issue. -/
def countVotes (client : Client) (owner repo : String) (issue : Issue) :
    Except String Int × List Event :=
  let opts : ListOptions := { Page := 0, PerPage := 100 }
  let ev := [Event.apiListComments owner repo issue.Number opts]
  match client.ListComments owner repo issue.Number opts with
  | .error err => (.error ("failed to list comments: " ++ err), ev)
  | .ok comments =>
    let r := countVotesScan client owner repo comments
    (r.1, ev ++ r.2)

/-- Go `createTopicsListMarkdown`. -/
def createTopicsListMarkdown (owner repo : String) (issues : List Issue) : String :=
  let sb := "# Hackathon Topic Voting\n\n"
  let sb := sb ++ "Vote for the topics you\x27re interested in! Go to each issue and react with \uF8FF\u00FC\u00EB\u00E7 on the voting comment.\n\n"
  let sb := sb ++ "## Topics\n\n"
  let sb := issues.foldl
    (fun sb issue => sb ++ ("- [#" ++ fmtD issue.Number ++ " - " ++ issue.Title ++
      "](https://github.com/" ++ owner ++ "/" ++ repo ++ "/issues/" ++
      fmtD issue.Number ++ ")\n"))
    sb
  let sb := sb ++ "\n---\n"
  sb ++ "*Voting results will be posted here once voting closes.*\n"

/-- The `switch i` of `createRankedListMarkdown`: the medal for position `i`. -/
def medal (i : Nat) : String :=
  match i with
  | 0 => "\uF8FF\u00FC\u2022\u00E1 "
  | 1 => "\uF8FF\u00FC\u2022\u00E0 "
  | 2 => "\uF8FF\u00FC\u2022\u00E2 "
  | _ => ""

/-- The `fmt.Sprintf` of `createRankedListMarkdown`: the table row of the tally
`iv` at position `i`. -/
def rankedRow (owner repo : String) (i : Nat) (iv : issueVote) : String :=
  "| " ++ medal i ++ fmtD (i + 1 : Nat) ++ " | [#" ++ fmtD iv.issue.Number ++ " - " ++
    iv.issue.Title ++ "](https://github.com/" ++ owner ++ "/" ++ repo ++ "/issues/" ++
    fmtD iv.issue.Number ++ ") | " ++ fmtD iv.votes ++ " |\n"

/-- The loop `for i, iv := range issueVotes` of `createRankedListMarkdown`,
carrying the string builder and the index. -/
def rankedRowsLoop (owner repo : String) : List issueVote → Nat → String → String
  | [], _, sb => sb
  | iv :: rest, i, sb => rankedRowsLoop owner repo rest (i + 1) (sb ++ rankedRow owner repo i iv)

/-- The text `createRankedListMarkdown` writes before the rows. -/
def rankedHeader : String :=
  "# \uF8FF\u00FC\u00E8\u00DC Hackathon Topic Voting Results\n\n" ++ "## Ranked Topics\n\n" ++
    "| Rank | Topic | Votes |\n" ++ "|:----:|:------|:-----:|\n"

/-- The text `createRankedListMarkdown` writes after the rows. -/
def rankedFooter : String :=
  "\n---\n" ++
    "*Thank you for voting! Teams will be formed based on these results and participant preferences.*\n"

/-- Go `createRankedListMarkdown`. -/
def createRankedListMarkdown (owner repo : String) (issueVotes : List issueVote) : String :=
  rankedRowsLoop owner repo issueVotes 0 rankedHeader ++ rankedFooter

/-- The loop of `startVoting` that adds a voting comment to each issue; a failure
is logged as a warning and the loop continues. -/
def addVotingComments (client : Client) (owner repo : String) : List Issue → List Event
  | [] => []
  | issue :: rest =>
    let r := addVotingComment client owner repo issue
    let line :=
      match r.1 with
      | .error err =>
        Event.log ("Warning: failed to add voting comment to issue #" ++ fmtD issue.Number ++
          ": " ++ err)
      | .ok _ =>
        Event.log ("Added voting comment to issue #" ++ fmtD issue.Number ++ ": " ++ issue.Title)
    r.2 ++ [line] ++ addVotingComments client owner repo rest

/-- The `fmt.Println` calls at the end of `startVoting`. -/
def discussionContent (discussionBody : String) : List Event :=
  [Event.println "\n=== DISCUSSION CONTENT ===",
   Event.println "Create a new discussion with the following content:",
   Event.println "Title: Hackathon Topic Voting",
   Event.println "\nBody:",
   Event.println discussionBody,
   Event.println "=== END DISCUSSION CONTENT ==="]

/-- Go `startVoting`: returns the error (`Except.ok ()` for nil) and the events;
`none` only when the page bound of `getOpenIssues` is used up. -/
def startVoting (client : Client) (owner repo label : String) (fuel : Nat) :
    Option (Except String Unit × List Event) :=
  match getOpenIssues client owner repo label fuel with
  | none => none
  | some (.error err, ev) => some (.error ("failed to get open issues: " ++ err), ev)
  | some (.ok issues, ev) =>
    if issues.length = 0 then
      some (.ok (), ev ++ [Event.log "No open issues found with the specified label"])
    else
      let ev := ev ++ [Event.log ("Found " ++ fmtD issues.length ++ " open issues")]
      let ev := ev ++ addVotingComments client owner repo issues
      let discussionBody := createTopicsListMarkdown owner repo issues
      some (.ok (), ev ++ discussionContent discussionBody)

/-- The loop of `closeVoting` that counts the votes of each issue: the tallies
`issueVotes` so far and the events. -/
def countAllVotes (client : Client) (owner repo : String) :
    List Issue → List issueVote → List Event → List issueVote × List Event
  | [], issueVotes, ev => (issueVotes, ev)
  | issue :: rest, issueVotes, ev =>
    let r := countVotes client owner repo issue
    let ev := ev ++ r.2
    let vw : Int × List Event :=
      match r.1 with
      | .error err =>
        (0, [Event.log ("Warning: failed to count votes for issue #" ++ fmtD issue.Number ++
          ": " ++ err)])
      | .ok votes => (votes, [])
    let votes := vw.1
    let ev := ev ++ vw.2
    let issueVotes := issueVotes ++ [{ issue := issue, votes := votes }]
    let ev := ev ++ [Event.log ("Issue #" ++ fmtD issue.Number ++ ": " ++ issue.Title ++
      " - " ++ fmtD votes ++ " votes")]
    countAllVotes client owner repo rest issueVotes ev

/-- The closure passed to `sort.Slice` in `closeVoting`:
`issueVotes[i].votes > issueVotes[j].votes`. -/
def moreVotes (x y : issueVote) : Bool := decide (x.votes > y.votes)

/-- The step `sort.Slice(issueVotes, ...)` of `closeVoting`: the slice afterwards. -/
def rankIssueVotes (issueVotes : List issueVote) : Option (List issueVote) :=
  sortSlice moreVotes issueVotes

/-- The `fmt.Println` calls at the end of `closeVoting`. -/
def votingResults (rankedList : String) : List Event :=
  [Event.println "\n=== VOTING RESULTS ===",
   Event.println "Update the discussion with the following content:",
   Event.println "\nRanked Topics:",
   Event.println rankedList,
   Event.println "=== END VOTING RESULTS ==="]

/-- Go `closeVoting` (the discussion id argument is ignored by the function):
returns the error and the events; `none` only when a bound of the model is
used up. -/
def closeVoting (client : Client) (owner repo label : String) (fuel : Nat) :
    Option (Except String Unit × List Event) :=
  match getOpenIssues client owner repo label fuel with
  | none => none
  | some (.error err, ev) => some (.error ("failed to get open issues: " ++ err), ev)
  | some (.ok issues, ev) =>
    if issues.length = 0 then
      some (.ok (), ev ++ [Event.log "No open issues found with the specified label"])
    else
      let ev := ev ++ [Event.log ("Found " ++ fmtD issues.length ++ " open issues")]
      let tally := countAllVotes client owner repo issues [] ev
      match rankIssueVotes tally.1 with
      | none => none
      | some issueVotes =>
        let rankedList := createRankedListMarkdown owner repo issueVotes
        some (.ok (), tally.2 ++ votingResults rankedList)

/-- The command-line flags of `main`; every flag defaults to `""`. -/
structure Flags where
  owner : String
  repo : String
  discussionID : String
  command : String
  hackathonLabel : String
  deriving DecidableEq, Repr

/-- How a run of `main` ends: the events and the exit status. -/
structure Outcome where
  events : List Event
  status : Nat
  deriving DecidableEq, Repr

/-- The effect of `log.Fatal(line)` after the events `ev`. -/
def logFatal (ev : List Event) (line : String) : Outcome :=
  { events := ev ++ [Event.fatal line], status := 1 }

/-- Go `main`: `flags` are the parsed flags, `token` is `os.Getenv("GITHUB_TOKEN")`,
`client` is the remote reached through the authenticated client. -/
def main (flags : Flags) (token : String) (client : Client) (fuel : Nat) : Option Outcome :=
  if flags.command = "" then
    some (logFatal [] "command is required: start-voting or close-voting")
  else if flags.owner = "" || flags.repo = "" then
    some (logFatal [] "owner and repo are required")
  else if token = "" then
    some (logFatal [] "GITHUB_TOKEN environment variable is required")
  else if flags.command = "start-voting" then
    match startVoting client flags.owner flags.repo flags.hackathonLabel fuel with
    | none => none
    | some (.error err, ev) => some (logFatal ev ("Error starting voting: " ++ err))
    | some (.ok _, ev) => some { events := ev, status := 0 }
  else if flags.command = "close-voting" then
    if flags.discussionID = "" then
      some (logFatal [] "discussion-id is required for close-voting")
    else
      match closeVoting client flags.owner flags.repo flags.hackathonLabel fuel with
      | none => none
      | some (.error err, ev) => some (logFatal ev ("Error closing voting: " ++ err))
      | some (.ok _, ev) => some { events := ev, status := 0 }
  else
    some (logFatal [] ("Unknown command: " ++ flags.command))

/-! ## A remote with paginated comment listing -/

/-- A remote holding the comments `comments` of one topic, oldest first: listing
comments answers the requested page of `PerPage` comments (page 0 or 1 is the
first page), creating a comment succeeds with the identifier `newID`. -/
def topicClient (comments : List IssueComment) (newID : Int) : Client :=
  { ListByRepo := fun _ _ _ => .ok ([], { NextPage := 0 })
    ListComments := fun _ _ _ opts =>
      .ok ((comments.drop ((opts.Page - 1) * opts.PerPage)).take opts.PerPage)
    CreateComment := fun _ _ _ body => .ok { ID := newID, Body := some body }
    ListIssueCommentReactions := fun _ _ _ _ => .ok [] }

/-- The comments of the topic after one run of `addVotingComment` against
`topicClient`: every comment the run created is appended. -/
def publishOn (comments : List IssueComment) (newID : Int) (issue : Issue) :
    List IssueComment :=
  comments ++
    (createdBodies (addVotingComment (topicClient comments newID) "o" "r" issue).2).map
      (fun body => { ID := newID, Body := some body })

/-! ## Specification vocabulary -/

section Specification

variable {α : Type}

/-- The rearrangement of `d` into `d'` is given by the index bijection `σ`, which moves
only positions in `[a, b)`. -/
def WithinBy (σ : Equiv.Perm Nat) (a b : Nat) (d d' : Nat → α) : Prop :=
  (∀ k, k < a ∨ b ≤ k → σ k = k) ∧ ∀ k, d' k = d (σ k)

/-- The map `d'` is a rearrangement of `d` that moves only positions in `[a, b)`. -/
def Within (a b : Nat) (d d' : Nat → α) : Prop :=
  ∃ σ : Equiv.Perm Nat, WithinBy σ a b d d'

/-- A rearrangement within `[a, b)` that keeps elements of equal rank in their order. -/
def StableWithin (rank : α → Int) (a b : Nat) (d d' : Nat → α) : Prop :=
  ∃ σ : Equiv.Perm Nat, WithinBy σ a b d d' ∧
    ∀ p q, a ≤ p → p < q → q < b → rank (d' p) = rank (d' q) → σ p < σ q

/-- The closure `less` orders elements by the integer `rank`. -/
def RankLess (less : α → α → Bool) (rank : α → Int) : Prop :=
  ∀ x y, less x y = true ↔ rank x < rank y

/-- The ranks of `d` are non-decreasing on `[a, b)`. -/
def SortedOn (rank : α → Int) (a b : Nat) (d : Nat → α) : Prop :=
  ∀ i j, a ≤ i → i ≤ j → j < b → rank (d i) ≤ rank (d j)

/-- Loop invariant of the partition routines: positions `(a, i)` hold elements
on the left side of the pivot `d a`, positions `(j, b)` elements on the right side. -/
def PartInv (inL : α → α → Bool) (a b : Nat) (d : Nat → α) (i j : Nat) : Prop :=
  a + 1 ≤ i ∧ j + 1 ≤ b ∧ i ≤ j + 1 ∧
    (∀ k, a + 1 ≤ k → k < i → inL (d k) (d a) = true) ∧
    (∀ k, j < k → k < b → inL (d k) (d a) = false)

/-- When `a > 0`, the element just before the range `[a, b)` ranks below the whole
range (it is the pivot of an earlier partition). -/
def LowBound (rank : α → Int) (a b : Nat) (d : Nat → α) : Prop :=
  0 < a → ∀ k, a ≤ k → k < b → rank (d (a - 1)) ≤ rank (d k)

/-- Heap property of the implicit binary tree stored at offsets `[0, hi)` from
`first`, for all parents at offset `lo` or more. -/
def HeapFrom (rank : α → Int) (first lo hi : Nat) (d : Nat → α) : Prop :=
  ∀ k c, lo ≤ k → (c = 2 * k + 1 ∨ c = 2 * k + 2) → c < hi →
    rank (d (first + c)) ≤ rank (d (first + k))

end Specification

/-! ## Sample inputs and remotes -/

/-- For every vote count, the tallies with that count appear in `ranked` in the
same order as in `tallies`. -/
def KeepsTieOrder (tallies ranked : List issueVote) : Prop :=
  ∀ v : Int, ranked.filter (fun t => decide (t.votes = v)) =
    tallies.filter (fun t => decide (t.votes = v))

/-- Thirteen tallies in fetch order: topics 0 to 11 with one vote each, then
topic 12 with two votes. -/
def thirteenTallies : List issueVote :=
  (List.range 12).map (fun i =>
      { issue := { Number := i, Title := "T", PullRequestLinks := none }, votes := 1 }) ++
    [{ issue := { Number := 12, Title := "T", PullRequestLinks := none }, votes := 2 }]

/-- The order in which `closeVoting` ranks `thirteenTallies`: topics
12, 6, 2, 3, 4, 5, 0, 7, 8, 9, 10, 11, 1. -/
def thirteenRanked : List issueVote :=
  ([12, 6, 2, 3, 4, 5, 0, 7, 8, 9, 10, 11, 1] : List Nat).map (fun i =>
    { issue := { Number := i, Title := "T", PullRequestLinks := none },
      votes := if i = 12 then 2 else 1 })

/-- A topic with 100 ordinary comments, oldest first. -/
def hundredComments : List IssueComment :=
  List.replicate 100 { ID := 1, Body := some "looks good" }

/-- The topic `hundredComments` after a first run of `addVotingComment`: the 100
ordinary comments, then the voting comment that run created. -/
def busyTopic : List IssueComment :=
  hundredComments ++ [{ ID := 2, Body := some commentBody }]

/-- A remote whose topic 7 has an ordinary comment, a comment without body and a
marked comment 30 that carries four reactions, two of them "+1". -/
def sampleClient : Client :=
  { ListByRepo := fun _ _ _ => .ok ([], { NextPage := 0 })
    ListComments := fun _ _ _ _ =>
      .ok [{ ID := 10, Body := some "nice" }, { ID := 20, Body := none },
           { ID := 30, Body := some commentBody }]
    CreateComment := fun _ _ _ body => .ok { ID := 40, Body := some body }
    ListIssueCommentReactions := fun _ _ _ _ =>
      .ok [{ Content := some "+1" }, { Content := some "heart" }, { Content := none },
           { Content := some "+1" }] }

/-- A remote whose topic has only unmarked comments (one without body), while
reactions exist on every comment. -/
def unmarkedClient : Client :=
  { ListByRepo := fun _ _ _ => .ok ([], { NextPage := 0 })
    ListComments := fun _ _ _ _ =>
      .ok [{ ID := 10, Body := some "+1 from me" }, { ID := 20, Body := none }]
    CreateComment := fun _ _ _ body => .ok { ID := 40, Body := some body }
    ListIssueCommentReactions := fun _ _ _ _ =>
      .ok [{ Content := some "+1" }, { Content := some "+1" }] }

/-- The tally `closeVoting` records for one topic: the count `countVotes`
returned, or 0 when `countVotes` failed. -/
def tallyOf (client : Client) (owner repo : String) (issue : Issue) : issueVote :=
  { issue := issue
    votes :=
      match (countVotes client owner repo issue).1 with
      | .ok votes => votes
      | .error _ => 0 }

/-- The remote answers the requests of `getOpenIssues`, starting with the options
`opts`, with exactly the pages `pages`: every page but the last announces a next
page, the last one announces none. -/
def fetchesPages (client : Client) (owner repo : String) :
    IssueListByRepoOptions → List (List Issue) → Bool
  | _, [] => false
  | opts, page :: rest =>
    match client.ListByRepo owner repo opts with
    | .error _ => false
    | .ok (issues, resp) =>
      decide (issues = page) &&
        (if rest.isEmpty then decide (resp.NextPage = 0)
         else decide (resp.NextPage ≠ 0) &&
           fetchesPages client owner repo
             { opts with ListOptions := { opts.ListOptions with Page := resp.NextPage } } rest)

/-- A remote with two pages of open items labelled "hack": an issue and a pull
request on the first page, an issue on the second. -/
def twoPageClient : Client :=
  { ListByRepo := fun _ _ opts =>
      if opts.ListOptions.Page = 0 then
        .ok ([{ Number := 1, Title := "A", PullRequestLinks := none },
              { Number := 2, Title := "B", PullRequestLinks := some "pulls/2" }], { NextPage := 2 })
      else
        .ok ([{ Number := 3, Title := "C", PullRequestLinks := none }], { NextPage := 0 })
    ListComments := fun _ _ _ _ => .ok []
    CreateComment := fun _ _ _ body => .ok { ID := 40, Body := some body }
    ListIssueCommentReactions := fun _ _ _ _ => .ok [] }

/-- A remote with no open issue. -/
def emptyClient : Client :=
  { ListByRepo := fun _ _ _ => .ok ([], { NextPage := 0 })
    ListComments := fun _ _ _ _ => .ok []
    CreateComment := fun _ _ _ body => .ok { ID := 40, Body := some body }
    ListIssueCommentReactions := fun _ _ _ _ => .ok [] }

/-- The issues `getOpenIssues` returns from `twoPageClient`. -/
def twoPageIssues : List Issue :=
  [{ Number := 1, Title := "A", PullRequestLinks := none },
   { Number := 3, Title := "C", PullRequestLinks := none }]

/-! ## Theorems -/

set_option maxRecDepth 100000

section Proofs

variable {α : Type}

theorem perm_maps_range {σ : Equiv.Perm Nat} {a b : Nat}
    (h : ∀ k, k < a ∨ b ≤ k → σ k = k) {k : Nat} (ha : a ≤ k) (hb : k < b) :
    a ≤ σ k ∧ σ k < b := by
  by_contra hc
  have h1 : σ k < a ∨ b ≤ σ k := by omega
  have h2 := h (σ k) h1
  have h3 : σ k = k := σ.injective h2
  omega

theorem Within.refl (a b : Nat) (d : Nat → α) : Within a b d d :=
  ⟨Equiv.refl _, fun _ _ => rfl, fun _ => rfl⟩

theorem Within.trans {a b : Nat} {d d' d'' : Nat → α}
    (h1 : Within a b d d') (h2 : Within a b d' d'') : Within a b d d'' := by
  obtain ⟨σ1, f1, e1⟩ := h1
  obtain ⟨σ2, f2, e2⟩ := h2
  refine ⟨σ2.trans σ1, fun k hk => ?_, fun k => ?_⟩
  · simp [Equiv.trans_apply, f2 k hk, f1 k hk]
  · simp [Equiv.trans_apply, e2 k, e1 (σ2 k)]

theorem Within.mono {a b a' b' : Nat} {d d' : Nat → α}
    (h : Within a b d d') (ha : a' ≤ a) (hb : b ≤ b') : Within a' b' d d' := by
  obtain ⟨σ, f, e⟩ := h
  exact ⟨σ, fun k hk => f k (by omega), e⟩

theorem Within.outside {a b : Nat} {d d' : Nat → α}
    (h : Within a b d d') {k : Nat} (hk : k < a ∨ b ≤ k) : d' k = d k := by
  obtain ⟨σ, f, e⟩ := h
  rw [e k, f k hk]

theorem Within.mem {a b : Nat} {d d' : Nat → α}
    (h : Within a b d d') {k : Nat} (ha : a ≤ k) (hb : k < b) :
    ∃ k', a ≤ k' ∧ k' < b ∧ d' k = d k' := by
  obtain ⟨σ, f, e⟩ := h
  exact ⟨σ k, (perm_maps_range f ha hb).1, (perm_maps_range f ha hb).2, e k⟩

theorem Within.forall {a b : Nat} {d d' : Nat → α} (h : Within a b d d')
    {P : α → Prop} (hP : ∀ k, a ≤ k → k < b → P (d k)) :
    ∀ k, a ≤ k → k < b → P (d' k) := by
  intro k ha hb
  obtain ⟨k', ha', hb', e⟩ := h.mem ha hb
  rw [e]; exact hP k' ha' hb'

theorem swap_eq_comp (d : Nat → α) (i j k : Nat) : swap d i j k = d (Equiv.swap i j k) := by
  unfold swap
  rw [Equiv.swap_apply_def]
  split_ifs <;> rfl

theorem withinBy_swap {a b i j : Nat} (d : Nat → α)
    (hi : a ≤ i ∧ i < b) (hj : a ≤ j ∧ j < b) :
    WithinBy (Equiv.swap i j) a b d (swap d i j) := by
  refine ⟨fun k hk => ?_, fun k => swap_eq_comp d i j k⟩
  rw [Equiv.swap_apply_def]
  split_ifs <;> omega

theorem within_swap {a b i j : Nat} (d : Nat → α)
    (hi : a ≤ i ∧ i < b) (hj : a ≤ j ∧ j < b) : Within a b d (swap d i j) :=
  ⟨_, withinBy_swap d hi hj⟩

theorem StableWithin.toWithin {rank : α → Int} {a b : Nat} {d d' : Nat → α}
    (h : StableWithin rank a b d d') : Within a b d d' := by
  obtain ⟨σ, h1, _⟩ := h
  exact ⟨σ, h1⟩

theorem StableWithin.srefl (rank : α → Int) (a b : Nat) (d : Nat → α) :
    StableWithin rank a b d d :=
  ⟨Equiv.refl _, ⟨fun _ _ => rfl, fun _ => rfl⟩, fun p q _ h _ _ => by simpa using h⟩

theorem StableWithin.strans {rank : α → Int} {a b : Nat} {d d' d'' : Nat → α}
    (h1 : StableWithin rank a b d d') (h2 : StableWithin rank a b d' d'') :
    StableWithin rank a b d d'' := by
  obtain ⟨σ1, ⟨f1, e1⟩, s1⟩ := h1
  obtain ⟨σ2, ⟨f2, e2⟩, s2⟩ := h2
  refine ⟨σ2.trans σ1, ⟨fun k hk => ?_, fun k => ?_⟩, fun p q hp hpq hq hr => ?_⟩
  · simp [Equiv.trans_apply, f2 k hk, f1 k hk]
  · simp [Equiv.trans_apply, e2 k, e1 (σ2 k)]
  · have h3 := s2 p q hp hpq hq hr
    have hp2 := perm_maps_range f2 hp (by omega : p < b)
    have hq2 := perm_maps_range f2 (by omega : a ≤ q) hq
    have h4 : rank (d' (σ2 p)) = rank (d' (σ2 q)) := by rw [← e2 p, ← e2 q]; exact hr
    have := s1 (σ2 p) (σ2 q) hp2.1 h3 hq2.2 h4
    simpa [Equiv.trans_apply] using this

theorem StableWithin.smono {rank : α → Int} {a b a' b' : Nat} {d d' : Nat → α}
    (h : StableWithin rank a b d d') (ha : a' ≤ a) (hb : b ≤ b') :
    StableWithin rank a' b' d d' := by
  obtain ⟨σ, ⟨f, e⟩, s⟩ := h
  refine ⟨σ, ⟨fun k hk => f k (by omega), e⟩, fun p q hp hpq hq hr => ?_⟩
  by_cases hpa : a ≤ p
  · by_cases hqb : q < b
    · exact s p q hpa hpq hqb hr
    · rw [f q (by omega)]
      by_cases hpb : p < b
      · have := (perm_maps_range f hpa hpb).2; omega
      · rw [f p (by omega)]; exact hpq
  · rw [f p (by omega)]
    by_cases hqa : a ≤ q
    · by_cases hqb : q < b
      · have := (perm_maps_range f hqa hqb).1; omega
      · rw [f q (by omega)]; exact hpq
    · rw [f q (by omega)]; exact hpq

/-- Swapping two neighbours of different rank keeps equal-rank elements in order. -/
theorem stableWithin_swap_adj {rank : α → Int} {a b j : Nat} (d : Nat → α)
    (ha : a ≤ j) (hb : j + 1 < b) (hr : rank (d (j + 1)) ≠ rank (d j)) :
    StableWithin rank a b d (swap d (j + 1) j) := by
  refine ⟨Equiv.swap (j + 1) j, withinBy_swap d ⟨by omega, hb⟩ ⟨ha, by omega⟩,
    fun p q hp hpq hq he => ?_⟩
  simp only [swap] at he
  rw [Equiv.swap_apply_def, Equiv.swap_apply_def]
  split_ifs at he ⊢ <;> omega

theorem rank_swap (rank : α → Int) (d : Nat → α) (i j k : Nat) :
    rank (swap d i j k) =
      if k = i then rank (d j) else if k = j then rank (d i) else rank (d k) := by
  unfold swap; split_ifs <;> rfl

theorem swap_left (d : Nat → α) (i j : Nat) : swap d i j i = d j := by
  simp [swap]

theorem swap_right (d : Nat → α) (i j : Nat) : swap d i j j = d i := by
  unfold swap
  by_cases h : j = i
  · rw [if_pos h, h]
  · rw [if_neg h, if_pos rfl]

theorem swap_ne (d : Nat → α) {i j k : Nat} (h1 : k ≠ i) (h2 : k ≠ j) :
    swap d i j k = d k := by
  unfold swap
  rw [if_neg h1, if_neg h2]

theorem less_iff {less : α → α → Bool} {rank : α → Int} (hr : RankLess less rank)
    (d : Nat → α) (i j : Nat) : Less less d i j = true ↔ rank (d i) < rank (d j) :=
  hr (d i) (d j)

/-- The shifting loop with loop bound `lo` on a range `[a, i]` whose left
neighbour `a - 1` (when `lo < a`) ranks below the whole range: the element at `j`
is inserted into the sorted rest, moving only positions in `[a, i]`. -/
theorem insertionShift_spec {less : α → α → Bool} {rank : α → Int}
    (hr : RankLess less rank) (lo a i : Nat) (hlo : lo ≤ a) :
    ∀ j d, a ≤ j → j ≤ i →
      (∀ x y, a ≤ x → x ≤ y → y ≤ i → x ≠ j → y ≠ j → rank (d x) ≤ rank (d y)) →
      (∀ y, j < y → y ≤ i → rank (d j) ≤ rank (d y)) →
      (lo < a → ∀ k, a ≤ k → k ≤ i → rank (d (a - 1)) ≤ rank (d k)) →
      SortedOn rank a (i + 1) (insertionShift less lo j d) ∧
        StableWithin rank a (i + 1) d (insertionShift less lo j d) := by
  intro j
  induction j with
  | zero =>
    intro d _ _ h1 h2 _
    refine ⟨fun x y hx hxy hy => ?_, StableWithin.srefl _ _ _ _⟩
    simp only [insertionShift]
    by_cases hx0 : x = 0
    · by_cases hy0 : y = 0
      · subst hx0; subst hy0; exact le_refl _
      · subst hx0; exact h2 y (by omega) (by omega)
    · exact h1 x y hx hxy (by omega) hx0 (by omega)
  | succ j ih =>
    intro d ha hi h1 h2 h3
    simp only [insertionShift]
    by_cases hc : (decide (j + 1 > lo) && Less less d (j + 1) j) = true
    · rw [if_pos hc]
      simp only [Bool.and_eq_true, decide_eq_true_eq] at hc
      obtain ⟨hjl, hl⟩ := hc
      rw [less_iff hr] at hl
      have hja : j + 1 > a := by
        by_contra hn
        have e : a = j + 1 := by omega
        have := h3 (by omega) (j + 1) (by omega) hi
        rw [e] at this
        simp only [Nat.add_sub_cancel] at this
        omega
      have key := ih (swap d (j + 1) j) (by omega) (by omega) ?_ ?_ ?_
      · refine ⟨key.1, StableWithin.strans ?_ key.2⟩
        exact stableWithin_swap_adj d (by omega) (by omega) (by omega)
      · intro x y hx hxy hy hxj hyj
        simp only [swap]
        have e1 := h1 x y hx hxy hy
        have e2 := h1 j y (by omega)
        have e3 := h1 x j hx
        split_ifs <;> omega
      · intro y hy1 hy2
        simp only [swap]
        have e2 := h2 y
        split_ifs <;> omega
      · intro hla k hk1 hk2
        simp only [swap]
        have e1 := h3 hla k hk1 hk2
        have e2 := h3 hla j (by omega) (by omega)
        have e3 := h3 hla (j + 1) (by omega) (by omega)
        split_ifs <;> omega
    · rw [if_neg hc]
      refine ⟨fun x y hx hxy hy => ?_, StableWithin.srefl _ _ _ _⟩
      have hc2 : j + 1 ≤ a ∨ rank (d j) ≤ rank (d (j + 1)) := by
        by_cases hja : j + 1 > lo
        · by_cases hja2 : j + 1 > a
          · right
            have : ¬ (Less less d (j + 1) j = true) := by
              intro h; apply hc; simp [hja, h]
            rw [less_iff hr] at this
            omega
          · left; omega
        · left; omega
      by_cases hxj : x = j + 1
      · by_cases hyj : y = j + 1
        · subst hxj; subst hyj; exact le_refl _
        · subst hxj; exact h2 y (by omega) (by omega)
      · by_cases hyj : y = j + 1
        · subst hyj
          rcases hc2 with h | h
          · omega
          · by_cases hxj2 : x = j
            · subst hxj2; exact h
            · have := h1 x j hx (by omega) (by omega) hxj (by omega)
              omega
        · exact h1 x y hx hxy (by omega) hxj hyj

theorem insertionLoop_spec {less : α → α → Bool} {rank : α → Int}
    (hr : RankLess less rank) (a : Nat) :
    ∀ n i d, a + 1 ≤ i → SortedOn rank a i d →
      SortedOn rank a (i + n) (insertionLoop less a n i d) ∧
        StableWithin rank a (i + n) d (insertionLoop less a n i d) := by
  intro n
  induction n with
  | zero =>
    intro i d _ hs
    exact ⟨hs, StableWithin.srefl _ _ _ _⟩
  | succ n ih =>
    intro i d hi hs
    simp only [insertionLoop]
    have h1 := insertionShift_spec hr a a i (le_refl _) i d (by omega) (le_refl _)
      (fun x y hx hxy hy _ hyi => hs x y hx hxy (by omega))
      (fun y h1 h2 => by omega) (fun h => absurd h (lt_irrefl _))
    have h2 := ih (i + 1) _ (by omega) h1.1
    have e : i + 1 + n = i + (n + 1) := by omega
    rw [e] at h2
    exact ⟨h2.1, StableWithin.strans (h1.2.smono (le_refl _) (by omega)) h2.2⟩

theorem insertionSort_spec {less : α → α → Bool} {rank : α → Int}
    (hr : RankLess less rank) (d : Nat → α) (a b : Nat) :
    SortedOn rank a b (insertionSort_func less d a b) ∧
      StableWithin rank a b d (insertionSort_func less d a b) := by
  unfold insertionSort_func
  by_cases h : a + 1 ≤ b
  · have := insertionLoop_spec hr a (b - (a + 1)) (a + 1) d (le_refl _)
      (fun x y hx hxy hy => by
        have : x = y := by omega
        subst this; exact le_refl _)
    have e : a + 1 + (b - (a + 1)) = b := by omega
    rw [e] at this
    exact this
  · have e : b - (a + 1) = 0 := by omega
    rw [e]
    exact ⟨fun x y hx hxy hy => by omega, StableWithin.srefl _ _ _ _⟩

theorem scanUp_spec (p : Nat → Bool) (j : Nat) :
    ∀ n i, j + 1 - i ≤ n →
      i ≤ scanUp p j n i ∧ (scanUp p j n i ≤ j + 1 ∨ scanUp p j n i = i) ∧
      (∀ k, i ≤ k → k < scanUp p j n i → p k = true) ∧
      (scanUp p j n i ≤ j → p (scanUp p j n i) = false) := by
  intro n
  induction n with
  | zero =>
    intro i h
    exact ⟨le_refl _, Or.inr rfl, fun k h1 h2 => absurd h2 (by simp only [scanUp]; omega),
      fun h1 => absurd h1 (by simp only [scanUp]; omega)⟩
  | succ n ih =>
    intro i h
    simp only [scanUp]
    by_cases hc : (decide (i ≤ j) && p i) = true
    · rw [if_pos hc]
      simp only [Bool.and_eq_true, decide_eq_true_eq] at hc
      obtain ⟨h1, h2, h3, h4⟩ := ih (i + 1) (by omega)
      refine ⟨by omega, by omega, fun k hk1 hk2 => ?_, h4⟩
      by_cases hk : k = i
      · rw [hk]; exact hc.2
      · exact h3 k (by omega) hk2
    · rw [if_neg hc]
      refine ⟨le_refl _, Or.inr rfl, fun k h1 h2 => by omega, fun h1 => ?_⟩
      simp only [Bool.and_eq_true, decide_eq_true_eq, not_and, Bool.not_eq_true] at hc
      exact hc h1

theorem scanDown_spec (p : Nat → Bool) (i : Nat) (hi : 1 ≤ i) :
    ∀ j, scanDown p i j ≤ j ∧ (i ≤ j + 1 → i ≤ scanDown p i j + 1) ∧
      (∀ k, scanDown p i j < k → k ≤ j → p k = true) ∧
      (i ≤ scanDown p i j → p (scanDown p i j) = false) := by
  intro j
  induction j with
  | zero =>
    exact ⟨le_refl _, fun h => by omega, fun k h1 h2 => absurd h1 (by simp only [scanDown]; omega),
      fun h => absurd h (by simp only [scanDown]; omega)⟩
  | succ j ih =>
    simp only [scanDown]
    by_cases hc : (decide (i ≤ j + 1) && p (j + 1)) = true
    · rw [if_pos hc]
      simp only [Bool.and_eq_true, decide_eq_true_eq] at hc
      obtain ⟨h1, h2, h3, h4⟩ := ih
      refine ⟨by omega, fun _ => h2 hc.1, fun k hk1 hk2 => ?_, h4⟩
      by_cases hk : k = j + 1
      · rw [hk]; exact hc.2
      · exact h3 k hk1 (by omega)
    · rw [if_neg hc]
      refine ⟨le_refl _, fun h => by omega, fun k h1 h2 => by omega, fun h1 => ?_⟩
      simp only [Bool.and_eq_true, decide_eq_true_eq, not_and, Bool.not_eq_true] at hc
      exact hc h1

theorem inL_false_of_inR {inL inR : α → α → Bool} (hR : ∀ x y, inR x y = !inL x y)
    {x y : α} (h : inR x y = true) : inL x y = false := by
  have e := hR x y
  rw [h] at e
  cases hb : inL x y
  · rfl
  · rw [hb] at e; exact absurd e (by decide)

theorem inL_true_of_inR {inL inR : α → α → Bool} (hR : ∀ x y, inR x y = !inL x y)
    {x y : α} (h : inR x y = false) : inL x y = true := by
  have e := hR x y
  rw [h] at e
  cases hb : inL x y
  · rw [hb] at e; exact absurd e (by decide)
  · rfl

theorem partInv_scans {inL inR : α → α → Bool} (hR : ∀ x y, inR x y = !inL x y)
    {a b : Nat} {d : Nat → α} {i j : Nat} (h : PartInv inL a b d i j) :
    let i' := scanUp (fun k => inL (d k) (d a)) j (j + 1 - i) i
    let j' := scanDown (fun k => inR (d k) (d a)) i' j
    PartInv inL a b d i' j' ∧ i ≤ i' ∧ j' ≤ j ∧
      (i' ≤ j' → inL (d i') (d a) = false ∧ inL (d j') (d a) = true ∧ i' < j') := by
  intro i' j'
  obtain ⟨h1, h2, h3, h4, h5⟩ := h
  obtain ⟨u1, u2, u3, u4⟩ := scanUp_spec (fun k => inL (d k) (d a)) j (j + 1 - i) i (le_refl _)
  obtain ⟨w1, w2, w3, w4⟩ := scanDown_spec (fun k => inR (d k) (d a)) i' (by omega) j
  have hi' : i' ≤ j + 1 := by rcases u2 with h | h <;> omega
  have hfin : i' ≤ j' → inL (d i') (d a) = false ∧ inL (d j') (d a) = true := by
    intro hle
    have e1 := u4 (by omega)
    have e2 : inR (d j') (d a) = false := w4 hle
    exact ⟨e1, inL_true_of_inR hR e2⟩
  refine ⟨⟨by omega, by omega, w2 hi', fun k hk1 hk2 => ?_, fun k hk1 hk2 => ?_⟩,
    u1, w1, fun hle => ⟨(hfin hle).1, (hfin hle).2, ?_⟩⟩
  · by_cases hk : k < i
    · exact h4 k hk1 hk
    · exact u3 k (by omega) hk2
  · by_cases hk : j < k
    · exact h5 k hk hk2
    · have e : inR (d k) (d a) = true := w3 k hk1 (by omega)
      exact inL_false_of_inR hR e
  · rcases Nat.lt_or_ge i' j' with hlt | hge
    · exact hlt
    · have e : i' = j' := by omega
      have := hfin hle
      rw [e] at this
      rw [this.2] at this
      exact absurd this.1 (by simp)

theorem partInv_swap {inL : α → α → Bool} {a b : Nat} {d : Nat → α} {i j : Nat}
    (h : PartInv inL a b d i j) (hij : i < j)
    (hi : inL (d i) (d a) = false) (hj : inL (d j) (d a) = true) :
    PartInv inL a b (swap d i j) (i + 1) (j - 1) := by
  obtain ⟨h1, h2, h3, h4, h5⟩ := h
  have ea : swap d i j a = d a := by
    simp only [swap]; rw [if_neg (by omega), if_neg (by omega)]
  refine ⟨by omega, by omega, by omega, fun k hk1 hk2 => ?_, fun k hk1 hk2 => ?_⟩
  · rw [ea]
    by_cases hk : k = i
    · subst hk; simp only [swap, if_true]; exact hj
    · simp only [swap]; rw [if_neg hk, if_neg (by omega)]; exact h4 k hk1 (by omega)
  · rw [ea]
    by_cases hk : k = j
    · subst hk; simp only [swap]; rw [if_neg (by omega)]; simp only [if_true]; exact hi
    · simp only [swap]; rw [if_neg (by omega), if_neg hk]; exact h5 k (by omega) hk2

theorem partitionRounds_spec {inL inR : α → α → Bool} (hR : ∀ x y, inR x y = !inL x y)
    (a b : Nat) :
    ∀ n d i j, PartInv inL a b d i j → j + 1 - i < n →
      ∃ d' i' j', partitionRounds inL inR a n d i j = some (d', i', j') ∧
        Within (a + 1) b d d' ∧ i' = j' + 1 ∧ i ≤ i' ∧ PartInv inL a b d' i' j' := by
  intro n
  induction n with
  | zero => intro d i j _ h; omega
  | succ n ih =>
    intro d i j hinv hn
    obtain ⟨hinv', hii, hjj, hfin⟩ := partInv_scans hR hinv
    simp only [partitionRounds]
    by_cases hc : scanUp (fun k => inL (d k) (d a)) j (j + 1 - i) i >
        scanDown (fun k => inR (d k) (d a))
          (scanUp (fun k => inL (d k) (d a)) j (j + 1 - i) i) j
    · rw [if_pos hc]
      refine ⟨d, _, _, rfl, Within.refl _ _ _, ?_, hii, hinv'⟩
      have := hinv'.2.2.1
      omega
    · rw [if_neg hc]
      obtain ⟨e1, e2, e3⟩ := hfin (by omega)
      have hs := partInv_swap hinv' e3 e1 e2
      obtain ⟨d', i', j', r1, r2, r3, r4, r5⟩ := ih _ _ _ hs (by omega)
      refine ⟨d', i', j', r1, Within.trans ?_ r2, r3, by omega, r5⟩
      exact within_swap d ⟨by have := hinv'.1; omega, by have := hinv'.2.1; omega⟩
        ⟨by have := hinv'.1; omega, by have := hinv'.2.1; omega⟩

theorem partInv_init (inL : α → α → Bool) {a b : Nat} (d : Nat → α) (hab : a < b) :
    PartInv inL a b d (a + 1) (b - 1) :=
  ⟨le_refl _, by omega, by omega, fun k h1 h2 => by omega, fun k h1 h2 => by omega⟩

theorem partition_finish {less : α → α → Bool} {rank : α → Int} (hr : RankLess less rank)
    {a b : Nat} {d : Nat → α} {i j : Nat}
    (h : PartInv (fun x p => less x p) a b d i j) (hij : i = j + 1) :
    a ≤ j ∧ j < b ∧ Within a b d (swap d j a) ∧
      (∀ k, a ≤ k → k < j → rank (swap d j a k) < rank (swap d j a j)) ∧
      (∀ k, j < k → k < b → rank (swap d j a j) ≤ rank (swap d j a k)) := by
  obtain ⟨h1, h2, h3, h4, h5⟩ := h
  have ej : swap d j a j = d a := by simp [swap]
  refine ⟨by omega, by omega, within_swap d ⟨by omega, by omega⟩ ⟨le_refl _, by omega⟩,
    fun k hk1 hk2 => ?_, fun k hk1 hk2 => ?_⟩
  · rw [ej]
    by_cases hk : k = a
    · subst hk
      have e : swap d j k k = d j := by
        simp only [swap]; rw [if_neg (by omega)]; simp
      rw [e]
      exact (hr _ _).1 (h4 j (by omega) (by omega))
    · have e : swap d j a k = d k := by
        simp only [swap]; rw [if_neg (by omega), if_neg hk]
      rw [e]
      exact (hr _ _).1 (h4 k (by omega) (by omega))
  · rw [ej]
    have e : swap d j a k = d k := by
      simp only [swap]; rw [if_neg (by omega), if_neg (by omega)]
    rw [e]
    have := h5 k hk1 hk2
    have h6 : ¬ (rank (d k) < rank (d a)) := by
      intro hlt
      have := (hr _ _).2 hlt
      simp_all
    omega

/-- Outcome of `partition_func`: the pivot sits at `mid`, smaller ranks before
it and ranks at least as large after it. -/
theorem partition_spec {less : α → α → Bool} {rank : α → Int} (hr : RankLess less rank)
    (d : Nat → α) {a b pivot : Nat} (hp1 : a ≤ pivot) (hp2 : pivot < b) :
    ∃ d' mid ap, partition_func less d a b pivot = some (d', mid, ap) ∧
      a ≤ mid ∧ mid < b ∧ Within a b d d' ∧
      (∀ k, a ≤ k → k < mid → rank (d' k) < rank (d' mid)) ∧
      (∀ k, mid < k → k < b → rank (d' mid) ≤ rank (d' k)) := by
  have hR : ∀ x y : α, (fun x p => !less x p) x y = !(fun x p => less x p) x y :=
    fun _ _ => rfl
  have hw0 : Within a b d (swap d a pivot) :=
    within_swap d ⟨le_refl _, by omega⟩ ⟨hp1, hp2⟩
  have hinit := partInv_init (fun x p => less x p) (swap d a pivot) (by omega : a < b)
  obtain ⟨hinv, hii, hjj, hfin⟩ := partInv_scans hR hinit
  simp only [partition_func, Less]
  by_cases hc : scanUp (fun k => less (swap d a pivot k) (swap d a pivot a)) (b - 1)
        (b - 1 + 1 - (a + 1)) (a + 1) >
      scanDown (fun k => !less (swap d a pivot k) (swap d a pivot a))
        (scanUp (fun k => less (swap d a pivot k) (swap d a pivot a)) (b - 1)
          (b - 1 + 1 - (a + 1)) (a + 1)) (b - 1)
  · rw [if_pos hc]
    have hij := hinv.2.2.1
    obtain ⟨f1, f2, f3, f4, f5⟩ := partition_finish hr hinv (by omega)
    exact ⟨_, _, _, rfl, f1, f2, hw0.trans f3, f4, f5⟩
  · rw [if_neg hc]
    obtain ⟨e1, e2, e3⟩ := hfin (by omega)
    have hs := partInv_swap hinv e3 e1 e2
    obtain ⟨d', i', j', r1, r2, r3, r4, r5⟩ :=
      partitionRounds_spec hR a b (b - a) _ _ _ hs (by have := hinv.1; have := hinv.2.1; omega)
    rw [r1]
    obtain ⟨f1, f2, f3, f4, f5⟩ := partition_finish hr r5 r3
    refine ⟨_, _, _, rfl, f1, f2, ?_, f4, f5⟩
    refine hw0.trans (Within.trans ?_ ((r2.mono (by omega) (le_refl _)).trans f3))
    exact within_swap _ ⟨by have := hinv.1; omega, by have := hinv.2.1; omega⟩
      ⟨by have := hinv.1; omega, by have := hinv.2.1; omega⟩

/-- Outcome of `partitionEqual_func` when no element of `[a, b)` ranks below the
pivot: elements of the pivot's rank come first, strictly larger ranks after. -/
theorem partitionEqual_spec {less : α → α → Bool} {rank : α → Int} (hr : RankLess less rank)
    (d : Nat → α) {a b pivot : Nat} (hp1 : a ≤ pivot) (hp2 : pivot < b)
    (hmin : ∀ k, a ≤ k → k < b → rank (d pivot) ≤ rank (d k)) :
    ∃ d' mid, partitionEqual_func less d a b pivot = some (d', mid) ∧
      a + 1 ≤ mid ∧ mid ≤ b ∧ Within a b d d' ∧
      (∀ k, a ≤ k → k < mid → rank (d' k) = rank (d pivot)) ∧
      (∀ k, mid ≤ k → k < b → rank (d pivot) < rank (d' k)) := by
  have hR : ∀ x y : α, (fun x p => less p x) x y = !(fun x p => !less p x) x y :=
    fun _ _ => by simp
  have hw0 : Within a b d (swap d a pivot) :=
    within_swap d ⟨le_refl _, by omega⟩ ⟨hp1, hp2⟩
  have hinit := partInv_init (fun x p => !less p x) (swap d a pivot) (by omega : a < b)
  obtain ⟨d', i', j', r1, r2, r3, r4, r5⟩ :=
    partitionRounds_spec hR a b (b - a + 1) _ _ _ hinit (by omega)
  simp only [partitionEqual_func]
  rw [r1]
  obtain ⟨h1, h2, h3, h4, h5⟩ := r5
  have hw : Within a b d d' := hw0.trans (r2.mono (by omega) (le_refl _))
  have ha : d' a = d pivot := by
    rw [r2.outside (Or.inl (by omega))]; simp [swap]
  have hmin' := hw.forall (P := fun x => rank (d pivot) ≤ rank x) hmin
  refine ⟨d', i', rfl, by omega, by omega, hw, fun k hk1 hk2 => ?_, fun k hk1 hk2 => ?_⟩
  · by_cases hk : k = a
    · rw [hk, ha]
    · have e := h4 k (by omega) hk2
      rw [ha] at e
      have h6 : ¬ (rank (d pivot) < rank (d' k)) := by
        intro hlt
        have := (hr _ _).2 hlt
        simp_all
      have := hmin' k hk1 (by omega)
      omega
  · have e := h5 k (by omega) hk2
    rw [ha] at e
    simp only [Bool.not_eq_false'] at e
    exact (hr _ _).1 e

theorem order2_mem (less : α → α → Bool) (d : Nat → α) (a b s : Nat) :
    ((order2_func less d a b s).1 = a ∧ (order2_func less d a b s).2.1 = b) ∨
      ((order2_func less d a b s).1 = b ∧ (order2_func less d a b s).2.1 = a) := by
  unfold order2_func
  split_ifs
  · exact Or.inr ⟨rfl, rfl⟩
  · exact Or.inl ⟨rfl, rfl⟩

theorem median_range (less : α → α → Bool) (d : Nat → α) {lo hi a b c : Nat} (s : Nat)
    (ha : lo ≤ a ∧ a < hi) (hb : lo ≤ b ∧ b < hi) (hc : lo ≤ c ∧ c < hi) :
    lo ≤ (median_func less d a b c s).1 ∧ (median_func less d a b c s).1 < hi := by
  simp only [median_func]
  have h1 := order2_mem less d a b s
  have h2 := order2_mem less d (order2_func less d a b s).2.1 c (order2_func less d a b s).2.2
  have h3 := order2_mem less d (order2_func less d a b s).1
    (order2_func less d (order2_func less d a b s).2.1 c (order2_func less d a b s).2.2).1
    (order2_func less d (order2_func less d a b s).2.1 c (order2_func less d a b s).2.2).2.2
  omega

theorem choosePivot_range (less : α → α → Bool) (d : Nat → α) {a b : Nat} (h : 8 ≤ b - a) :
    a ≤ (choosePivot_func less d a b).1 ∧ (choosePivot_func less d a b).1 < b := by
  have hq : 2 ≤ (b - a) / 4 := by omega
  have hq2 : (b - a) / 4 * 4 ≤ b - a := Nat.div_mul_le_self _ _
  have key : ∀ r : Nat × Nat, (a ≤ r.1 ∧ r.1 < b) →
      a ≤ (if r.2 = 0 then (r.1, sortedHint.increasingHint)
        else if r.2 = 4 * 3 then (r.1, sortedHint.decreasingHint)
        else (r.1, sortedHint.unknownHint)).1 ∧
      (if r.2 = 0 then (r.1, sortedHint.increasingHint)
        else if r.2 = 4 * 3 then (r.1, sortedHint.decreasingHint)
        else (r.1, sortedHint.unknownHint)).1 < b := by
    intro r hr
    split_ifs <;> exact hr
  unfold choosePivot_func
  apply key
  rw [if_pos h]
  split_ifs with h50
  · have hq50 : 12 ≤ (b - a) / 4 := by omega
    refine median_range less d _ ?_ ?_ ?_
    · exact median_range less d _ (by omega) (by omega) (by omega)
    · exact median_range less d _ (by omega) (by omega) (by omega)
    · exact median_range less d _ (by omega) (by omega) (by omega)
  · exact median_range less d _ (by omega) (by omega) (by omega)

theorem reverseLoop_within (a b : Nat) :
    ∀ n i j (d : Nat → α), a ≤ i → j < b → Within a b d (reverseLoop n i j d) := by
  intro n
  induction n with
  | zero => intro i j d _ _; exact Within.refl _ _ _
  | succ n ih =>
    intro i j d hi hj
    simp only [reverseLoop]
    split_ifs with hij
    · exact (within_swap d ⟨hi, by omega⟩ ⟨by omega, hj⟩).trans
        (ih (i + 1) (j - 1) _ (by omega) (by omega))
    · exact Within.refl _ _ _

theorem reverseRange_within (d : Nat → α) {a b : Nat} (h : a < b) :
    Within a b d (reverseRange_func d a b) :=
  reverseLoop_within a b _ _ _ d (le_refl _) (by omega)

theorem bitsLenAux_bound : ∀ f n, 1 ≤ n → n ≤ f → 2 ^ bitsLenAux f n ≤ 2 * n := by
  intro f
  induction f with
  | zero => intro n h1 h2; omega
  | succ f ih =>
    intro n h1 h2
    simp only [bitsLenAux]
    rw [if_neg (by omega)]
    by_cases h : n / 2 = 0
    · rw [h]
      have e : bitsLenAux f 0 = 0 := by cases f <;> simp [bitsLenAux]
      rw [e]
      omega
    · have := ih (n / 2) (by omega) (by omega)
      rw [pow_add]
      omega

theorem nextPowerOfTwo_bound {n : Nat} (h : 1 ≤ n) :
    1 ≤ nextPowerOfTwo n ∧ nextPowerOfTwo n ≤ 2 * n := by
  unfold nextPowerOfTwo bitsLen
  exact ⟨Nat.one_le_two_pow, bitsLenAux_bound n n h (le_refl _)⟩

theorem breakPatternsStep_within (d : Nat → α) {a b : Nat} (i r : Nat)
    (h : 8 ≤ b - a) (hi : i ≤ 2) :
    Within a b d (breakPatternsStep d a (b - a) (nextPowerOfTwo (b - a))
      (a + (b - a) / 4 * 2 - 1) i r) := by
  unfold breakPatternsStep
  have hq : 2 ≤ (b - a) / 4 := by omega
  have hq2 : (b - a) / 4 * 4 ≤ b - a := Nat.div_mul_le_self _ _
  obtain ⟨hm1, hm2⟩ := nextPowerOfTwo_bound (by omega : 1 ≤ b - a)
  have hand : r &&& (nextPowerOfTwo (b - a) - 1) ≤ nextPowerOfTwo (b - a) - 1 :=
    Nat.and_le_right
  apply within_swap
  · omega
  · split_ifs <;> omega

theorem breakPatterns_within (d : Nat → α) (a b : Nat) :
    Within a b d (breakPatterns_func d a b) := by
  unfold breakPatterns_func
  simp only []
  split_ifs with h
  · exact ((breakPatternsStep_within d 0 _ h (by omega)).trans
      (breakPatternsStep_within _ 1 _ h (by omega))).trans
      (breakPatternsStep_within _ 2 _ h (by omega))
  · exact Within.refl _ _ _

theorem LowBound.carry {rank : α → Int} {a b : Nat} {d d' : Nat → α}
    (h : LowBound rank a b d) (hw : Within a b d d') : LowBound rank a b d' := by
  intro ha
  rw [hw.outside (Or.inl (by omega))]
  exact hw.forall (P := fun x => rank (d (a - 1)) ≤ rank x) (h ha)

theorem sortedOn_of_adj {rank : α → Int} {a b : Nat} {d : Nat → α}
    (h : ∀ k, a < k → k < b → rank (d (k - 1)) ≤ rank (d k)) : SortedOn rank a b d := by
  have key : ∀ n i, a ≤ i → i + n < b → rank (d i) ≤ rank (d (i + n)) := by
    intro n
    induction n with
    | zero => intro i _ _; exact le_refl _
    | succ n ih =>
      intro i hi hb
      have h1 := ih i hi (by omega)
      have h2 := h (i + (n + 1)) (by omega) hb
      have e : i + (n + 1) - 1 = i + n := by omega
      rw [e] at h2
      exact le_trans h1 h2
  intro i j hi hij hj
  have := key (j - i) i hi (by omega)
  have e : i + (j - i) = j := by omega
  rw [e] at this
  exact this

theorem SortedOn.within_outside {rank : α → Int} {a b lo hi : Nat} {d d' : Nat → α}
    (h : SortedOn rank a b d) (hw : Within lo hi d d') (hd : b ≤ lo ∨ hi ≤ a) :
    SortedOn rank a b d' := by
  intro i j hi' hij hj
  rw [hw.outside (by omega), hw.outside (by omega)]
  exact h i j hi' hij hj

theorem scanRun_spec (less : α → α → Bool) (b : Nat) (d : Nat → α) :
    ∀ n i, b - i ≤ n →
      i ≤ scanRun less b d n i ∧ (scanRun less b d n i ≤ b ∨ scanRun less b d n i = i) ∧
      (∀ k, i ≤ k → k < scanRun less b d n i → Less less d k (k - 1) = false) ∧
      (scanRun less b d n i < b → Less less d (scanRun less b d n i) (scanRun less b d n i - 1)
        = true) := by
  intro n
  induction n with
  | zero =>
    intro i h
    exact ⟨le_refl _, Or.inr rfl, fun k h1 h2 => absurd h2 (by simp only [scanRun]; omega),
      fun h1 => absurd h1 (by simp only [scanRun]; omega)⟩
  | succ n ih =>
    intro i h
    simp only [scanRun]
    by_cases hc : (decide (i < b) && !Less less d i (i - 1)) = true
    · rw [if_pos hc]
      simp only [Bool.and_eq_true, decide_eq_true_eq, Bool.not_eq_true'] at hc
      obtain ⟨h1, h2, h3, h4⟩ := ih (i + 1) (by omega)
      refine ⟨by omega, by omega, fun k hk1 hk2 => ?_, h4⟩
      by_cases hk : k = i
      · rw [hk]; exact hc.2
      · exact h3 k (by omega) hk2
    · rw [if_neg hc]
      refine ⟨le_refl _, Or.inr rfl, fun k h1 h2 => by omega, fun h1 => ?_⟩
      simp only [Bool.and_eq_true, decide_eq_true_eq, not_and, Bool.not_eq_true',
        Bool.not_eq_false] at hc
      exact hc h1

theorem shiftRight_within (less : α → α → Bool) (lo b : Nat) :
    ∀ n j (d : Nat → α), lo + 1 ≤ j → Within lo b d (shiftRight less b n j d) := by
  intro n
  induction n with
  | zero => intro j d _; exact Within.refl _ _ _
  | succ n ih =>
    intro j d hj
    simp only [shiftRight]
    by_cases hc : (decide (j < b) && Less less d j (j - 1)) = true
    · rw [if_pos hc]
      simp only [Bool.and_eq_true, decide_eq_true_eq] at hc
      exact (within_swap d ⟨by omega, hc.1⟩ ⟨by omega, by omega⟩).trans
        (ih (j + 1) _ (by omega))
    · rw [if_neg hc]; exact Within.refl _ _ _

theorem partialInsertionLoop_spec {less : α → α → Bool} {rank : α → Int}
    (hr : RankLess less rank) (a b : Nat) :
    ∀ n i d, a + 1 ≤ i → i ≤ b → SortedOn rank a i d → LowBound rank a b d →
      Within a b d (partialInsertionLoop less a b n i d).1 ∧
        ((partialInsertionLoop less a b n i d).2 = true →
          SortedOn rank a b (partialInsertionLoop less a b n i d).1) := by
  intro n
  induction n with
  | zero =>
    intro i d _ _ _ _
    exact ⟨Within.refl _ _ _, fun h => absurd h (by simp [partialInsertionLoop])⟩
  | succ n ih =>
    intro i d hi hib hs hlow
    obtain ⟨s1, s2, s3, s4⟩ := scanRun_spec less b d (b - i) i (le_refl _)
    simp only [partialInsertionLoop]
    generalize scanRun less b d (b - i) i = i' at s1 s2 s3 s4 ⊢
    have hi'b : i' ≤ b := by rcases s2 with h | h <;> omega
    have hs' : SortedOn rank a i' d := by
      apply sortedOn_of_adj
      intro k hk1 hk2
      by_cases hk : k < i
      · exact hs (k - 1) k (by omega) (by omega) hk
      · have h1 := s3 k (by omega) hk2
        have h2 : ¬ (rank (d k) < rank (d (k - 1))) := by
          intro hlt
          have := (less_iff hr d k (k - 1)).2 hlt
          rw [h1] at this
          exact absurd this (by decide)
        omega
    by_cases hc1 : i' = b
    · rw [if_pos hc1]
      exact ⟨Within.refl _ _ _, fun _ => hc1 ▸ hs'⟩
    · rw [if_neg hc1]
      by_cases hc2 : b - a < 50
      · rw [if_pos hc2]
        exact ⟨Within.refl _ _ _, fun h => absurd h (by simp)⟩
      · rw [if_neg hc2]
        have hw1 : Within a b d (swap d i' (i' - 1)) :=
          within_swap d ⟨by omega, by omega⟩ ⟨by omega, by omega⟩
        have hlow1 := hlow.carry hw1
        -- shifting the smaller one to the left
        have hleft : ∃ d2, d2 = (if i' - a ≥ 2 then
              insertionShift less 0 (i' - 1) (swap d i' (i' - 1)) else swap d i' (i' - 1)) ∧
            SortedOn rank a i' d2 ∧ Within a i' (swap d i' (i' - 1)) d2 := by
          refine ⟨_, rfl, ?_⟩
          by_cases hc3 : i' - a ≥ 2
          · rw [if_pos hc3]
            have key := insertionShift_spec hr 0 a (i' - 1) (Nat.zero_le _) (i' - 1)
              (swap d i' (i' - 1)) (by omega) (le_refl _) ?_ (fun y h1 h2 => by omega) ?_
            · have e : i' - 1 + 1 = i' := by omega
              rw [e] at key
              exact ⟨key.1, key.2.toWithin⟩
            · intro x y hx hxy hy hxj hyj
              simp only [swap]
              rw [if_neg (by omega), if_neg (by omega), if_neg (by omega), if_neg (by omega)]
              exact hs' x y hx hxy (by omega)
            · intro ha k hk1 hk2
              have := hlow1 ha k hk1 (by omega)
              exact this
          · rw [if_neg hc3]
            refine ⟨fun x y hx hxy hy => ?_, Within.refl _ _ _⟩
            have : x = y := by omega
            rw [this]
        obtain ⟨d2, hd2, hs2, hw2⟩ := hleft
        rw [← hd2]
        have hw12 : Within a b d d2 := hw1.trans (hw2.mono (le_refl _) (by omega))
        -- shifting the greater one to the right
        have hright : ∃ d3, d3 = (if b - i' ≥ 2 then
              shiftRight less b (b - (i' + 1)) (i' + 1) d2 else d2) ∧ Within i' b d2 d3 := by
          refine ⟨_, rfl, ?_⟩
          split_ifs
          · exact shiftRight_within less i' b _ _ _ (le_refl _)
          · exact Within.refl _ _ _
        obtain ⟨d3, hd3, hw3⟩ := hright
        rw [← hd3]
        have hw13 : Within a b d d3 := hw12.trans (hw3.mono (by omega) (le_refl _))
        have hs3 : SortedOn rank a i' d3 := hs2.within_outside hw3 (Or.inl (le_refl _))
        have := ih i' d3 (by omega) hi'b hs3 (hlow.carry hw13)
        exact ⟨hw13.trans this.1, this.2⟩

theorem partialInsertionSort_spec {less : α → α → Bool} {rank : α → Int}
    (hr : RankLess less rank) (d : Nat → α) {a b : Nat} (hab : a < b)
    (hlow : LowBound rank a b d) :
    Within a b d (partialInsertionSort_func less d a b).1 ∧
      ((partialInsertionSort_func less d a b).2 = true →
        SortedOn rank a b (partialInsertionSort_func less d a b).1) := by
  unfold partialInsertionSort_func
  apply partialInsertionLoop_spec hr a b 5 (a + 1) d (le_refl _) (by omega) _ hlow
  intro x y hx hxy hy
  have : x = y := by omega
  rw [this]

theorem siftDownLoop_spec {less : α → α → Bool} {rank : α → Int}
    (hr : RankLess less rank) (first lo hi : Nat) :
    ∀ n root d, lo ≤ root → hi - root ≤ n →
      (∀ k c, lo ≤ k → k ≠ root → (c = 2 * k + 1 ∨ c = 2 * k + 2) → c < hi →
        rank (d (first + c)) ≤ rank (d (first + k))) →
      (∀ p c, lo ≤ p → (root = 2 * p + 1 ∨ root = 2 * p + 2) →
        (c = 2 * root + 1 ∨ c = 2 * root + 2) → c < hi →
        rank (d (first + c)) ≤ rank (d (first + p))) →
      HeapFrom rank first lo hi (siftDownLoop less hi first n root d) ∧
        Within (first + lo) (first + hi) d (siftDownLoop less hi first n root d) := by
  intro n
  induction n with
  | zero =>
    intro root d hlo hn h1 h2
    refine ⟨fun k c hk hc hch => ?_, Within.refl _ _ _⟩
    simp only [siftDownLoop]
    exact h1 k c hk (by omega) hc hch
  | succ n ih =>
    intro root d hlo hn h1 h2
    simp only [siftDownLoop]
    by_cases hc0 : 2 * root + 1 ≥ hi
    · rw [if_pos hc0]
      refine ⟨fun k c hk hc hch => ?_, Within.refl _ _ _⟩
      exact h1 k c hk (by omega) hc hch
    · rw [if_neg hc0]
      -- the larger child
      have hch : ∃ child, child = (if (decide (2 * root + 1 + 1 < hi) &&
            Less less d (first + (2 * root + 1)) (first + (2 * root + 1) + 1)) = true
            then 2 * root + 1 + 1 else 2 * root + 1) ∧
          (child = 2 * root + 1 ∨ child = 2 * root + 2) ∧ child < hi ∧
          (∀ c, (c = 2 * root + 1 ∨ c = 2 * root + 2) → c < hi →
            rank (d (first + c)) ≤ rank (d (first + child))) := by
        refine ⟨_, rfl, ?_⟩
        by_cases hb : (decide (2 * root + 1 + 1 < hi) &&
            Less less d (first + (2 * root + 1)) (first + (2 * root + 1) + 1)) = true
        · rw [if_pos hb]
          simp only [Bool.and_eq_true, decide_eq_true_eq] at hb
          have hl := (less_iff hr d _ _).1 hb.2
          refine ⟨Or.inr rfl, hb.1, fun c hc hch => ?_⟩
          rcases hc with e | e
          · rw [e]
            have e2 : first + (2 * root + 1 + 1) = first + (2 * root + 1) + 1 := by omega
            rw [e2]; exact le_of_lt hl
          · rw [e]
        · rw [if_neg hb]
          refine ⟨Or.inl rfl, by omega, fun c hc hch => ?_⟩
          rcases hc with e | e
          · rw [e]
          · rw [e]
            have hnl : ¬ (Less less d (first + (2 * root + 1)) (first + (2 * root + 1) + 1)
                = true) := by
              intro h; apply hb; simp only [Bool.and_eq_true, decide_eq_true_eq]
              exact ⟨by omega, h⟩
            rw [less_iff hr] at hnl
            have e2 : first + (2 * root + 2) = first + (2 * root + 1) + 1 := by omega
            rw [e2]; omega
      obtain ⟨child, hdef, hcase, hlt, hmax⟩ := hch
      rw [← hdef]
      by_cases hb2 : (!Less less d (first + root) (first + child)) = true
      · rw [if_pos hb2]
        refine ⟨fun k c hk hc hch => ?_, Within.refl _ _ _⟩
        by_cases hkr : k = root
        · subst hkr
          have hnl : ¬ (Less less d (first + k) (first + child) = true) := by
            simpa using hb2
          rw [less_iff hr] at hnl
          have := hmax c hc hch
          omega
        · exact h1 k c hk hkr hc hch
      · rw [if_neg hb2]
        have hl : rank (d (first + root)) < rank (d (first + child)) := by
          rw [← less_iff hr]; simpa using hb2
        have ea : ∀ k, k ≠ root → k ≠ child →
            swap d (first + root) (first + child) (first + k) = d (first + k) := by
          intro k h1 h2
          exact swap_ne d (by omega) (by omega)
        have er : swap d (first + root) (first + child) (first + root) = d (first + child) :=
          swap_left d _ _
        have ec : swap d (first + root) (first + child) (first + child) = d (first + root) :=
          swap_right d _ _
        have pre1 : ∀ k c, lo ≤ k → k ≠ child → (c = 2 * k + 1 ∨ c = 2 * k + 2) → c < hi →
            rank (swap d (first + root) (first + child) (first + c)) ≤
              rank (swap d (first + root) (first + child) (first + k)) := by
          intro k c hk hkc hc hch
          by_cases hkr : k = root
          · subst hkr
            rw [er]
            by_cases hcc : c = child
            · rw [hcc, ec]; exact le_of_lt hl
            · rw [ea c (by omega) hcc]; exact hmax c hc hch
          · rw [ea k hkr hkc]
            by_cases hcr : c = root
            · rw [hcr, er]
              exact h2 k child hk (by omega) hcase hlt
            · rw [ea c hcr (by omega)]
              exact h1 k c hk hkr hc hch
        have pre2 : ∀ p c, lo ≤ p → (child = 2 * p + 1 ∨ child = 2 * p + 2) →
            (c = 2 * child + 1 ∨ c = 2 * child + 2) → c < hi →
            rank (swap d (first + root) (first + child) (first + c)) ≤
              rank (swap d (first + root) (first + child) (first + p)) := by
          intro p c hp hpc hc hch
          have hpr : p = root := by omega
          rw [hpr, er, ea c (by omega) (by omega)]
          exact h1 child c (by omega) (by omega) hc hch
        have key := ih child (swap d (first + root) (first + child)) (by omega) (by omega)
          pre1 pre2
        refine ⟨key.1, Within.trans ?_ key.2⟩
        exact within_swap d ⟨by omega, by omega⟩ ⟨by omega, by omega⟩

theorem siftDown_spec {less : α → α → Bool} {rank : α → Int}
    (hr : RankLess less rank) (first lo hi : Nat) (d : Nat → α)
    (h : HeapFrom rank first (lo + 1) hi d) :
    HeapFrom rank first lo hi (siftDown_func less d lo hi first) ∧
      Within (first + lo) (first + hi) d (siftDown_func less d lo hi first) := by
  unfold siftDown_func
  apply siftDownLoop_spec hr first lo hi hi lo d (le_refl _) (by omega)
  · intro k c hk hkr hc hch
    exact h k c (by omega) hc hch
  · intro p c hp hpc hc hch
    omega

theorem heapBuild_spec {less : α → α → Bool} {rank : α → Int}
    (hr : RankLess less rank) (first hi : Nat) :
    ∀ n d, HeapFrom rank first n hi d →
      HeapFrom rank first 0 hi (heapBuild less hi first n d) ∧
        Within first (first + hi) d (heapBuild less hi first n d) := by
  intro n
  induction n with
  | zero => intro d h; exact ⟨h, Within.refl _ _ _⟩
  | succ i ih =>
    intro d h
    simp only [heapBuild]
    obtain ⟨h1, h2⟩ := siftDown_spec hr first i hi d h
    obtain ⟨h3, h4⟩ := ih _ h1
    exact ⟨h3, (h2.mono (by omega) (le_refl _)).trans h4⟩

theorem heap_max {rank : α → Int} {first n : Nat} {d : Nat → α}
    (h : HeapFrom rank first 0 n d) :
    ∀ k, k < n → rank (d (first + k)) ≤ rank (d first) := by
  intro k
  induction k using Nat.strong_induction_on with
  | _ k ih =>
    intro hk
    by_cases hk0 : k = 0
    · rw [hk0, Nat.add_zero]
    · have h1 := ih ((k - 1) / 2) (by omega) (by omega)
      have h2 := h ((k - 1) / 2) k (Nat.zero_le _) (by omega) hk
      exact le_trans h2 h1

theorem heapPop_spec {less : α → α → Bool} {rank : α → Int}
    (hr : RankLess less rank) (first hi : Nat) :
    ∀ n d, n ≤ hi → HeapFrom rank first 0 n d →
      SortedOn rank (first + n) (first + hi) d →
      (∀ k m, k < n → n ≤ m → m < hi → rank (d (first + k)) ≤ rank (d (first + m))) →
      SortedOn rank first (first + hi) (heapPop less first n d) ∧
        Within first (first + n) d (heapPop less first n d) := by
  intro n
  induction n with
  | zero =>
    intro d _ _ hs _
    exact ⟨hs, Within.refl _ _ _⟩
  | succ i ih =>
    intro d hn hh hs hx
    simp only [heapPop]
    have hmax := heap_max hh
    have hw1 : Within first (first + (i + 1)) d (swap d first (first + i)) :=
      within_swap d ⟨le_refl _, by omega⟩ ⟨by omega, by omega⟩
    have hheap1 : HeapFrom rank first (0 + 1) i (swap d first (first + i)) := by
      intro k c hk hc hch
      simp only [swap]
      have := hh k c (Nat.zero_le _) hc (by omega)
      split_ifs <;> omega
    obtain ⟨h1, h2⟩ := siftDown_spec hr first 0 i (swap d first (first + i)) hheap1
    have h2' : Within first (first + i) (swap d first (first + i))
        (siftDown_func less (swap d first (first + i)) 0 i first) := h2
    have hs1 : SortedOn rank (first + i) (first + hi) (swap d first (first + i)) := by
      intro x y hx1 hxy hy
      by_cases hyi : y = first + i
      · have : x = y := by omega
        rw [this]
      · simp only [swap]
        have e1 := hs x y
        have e2 := hx 0 (y - first) (by omega) (by omega) (by omega)
        have e3 : first + (y - first) = y := by omega
        rw [e3, Nat.add_zero] at e2
        have hi0 : i = 0 → rank (d (first + i)) = rank (d first) := by
          intro h; rw [h, Nat.add_zero]
        split_ifs <;> omega
    have hx1 : ∀ k m, k < i → i ≤ m → m < hi →
        rank (swap d first (first + i) (first + k)) ≤
          rank (swap d first (first + i) (first + m)) := by
      intro k m hk hm hmh
      simp only [swap]
      have e2 := hmax k (by omega)
      have e3 := hmax i (by omega)
      by_cases hmi : m = i
      · subst hmi
        split_ifs <;> omega
      · have e1 := hx k m (by omega) (by omega) hmh
        have e4 := hx i m (by omega) (by omega) hmh
        split_ifs <;> omega
    have key := ih _ (by omega) h1 (hs1.within_outside h2' (Or.inr (le_refl _))) ?_
    · exact ⟨key.1, hw1.trans ((h2'.trans key.2).mono (le_refl _) (by omega))⟩
    · intro k m hk hm hmh
      rw [h2'.outside (k := first + m) (Or.inr (by omega))]
      have := h2'.forall (P := fun x => rank x ≤ rank (swap d first (first + i) (first + m)))
        (fun k' hk1 hk2 => by
          have := hx1 (k' - first) m (by omega) hm hmh
          have e : first + (k' - first) = k' := by omega
          rw [e] at this
          exact this)
      exact this (first + k) (by omega) (by omega)

theorem heapSort_spec {less : α → α → Bool} {rank : α → Int}
    (hr : RankLess less rank) (d : Nat → α) {a b : Nat} (hab : a ≤ b) :
    SortedOn rank a b (heapSort_func less d a b) ∧ Within a b d (heapSort_func less d a b) := by
  unfold heapSort_func
  simp only []
  have hb : a + (b - a) = b := by omega
  obtain ⟨h1, h2⟩ := heapBuild_spec hr a (b - a) ((b - a - 1) / 2 + 1) d
    (fun k c hk hc hch => by omega)
  obtain ⟨h3, h4⟩ := heapPop_spec hr a (b - a) (b - a) _ (le_refl _) h1
    (fun x y hx hxy hy => by omega) (fun k m hk hm hmh => by omega)
  rw [hb] at h2 h3 h4
  exact ⟨h3, h2.trans h4⟩

theorem pdqsortPrepare_spec {less : α → α → Bool} {rank : α → Int}
    (hr : RankLess less rank) (d : Nat → α) {a b : Nat} (limit : Nat) (wb wp : Bool)
    (hlen : 12 < b - a) (hlow : LowBound rank a b d) :
    Within a b d (pdqsortPrepare less d a b limit wb wp).1 ∧
      a ≤ (pdqsortPrepare less d a b limit wb wp).2.1 ∧
      (pdqsortPrepare less d a b limit wb wp).2.1 < b ∧
      ((pdqsortPrepare less d a b limit wb wp).2.2.2 = true →
        SortedOn rank a b (pdqsortPrepare less d a b limit wb wp).1) := by
  simp only [pdqsortPrepare]
  have hw1 : Within a b d (if (!wb) = true then breakPatterns_func d a b else d) := by
    split_ifs
    · exact breakPatterns_within d a b
    · exact Within.refl _ _ _
  generalize (if (!wb) = true then breakPatterns_func d a b else d) = d1 at hw1 ⊢
  have hpr := choosePivot_range less d1 (a := a) (b := b) (by omega)
  generalize choosePivot_func less d1 a b = ph at hpr ⊢
  have hw2 : Within a b d1 (if decide (ph.2 = sortedHint.decreasingHint) = true
      then reverseRange_func d1 a b else d1) := by
    split_ifs
    · exact reverseRange_within d1 (by omega)
    · exact Within.refl _ _ _
  generalize (if decide (ph.2 = sortedHint.decreasingHint) = true
      then reverseRange_func d1 a b else d1) = d2 at hw2 ⊢
  have hp : a ≤ (if decide (ph.2 = sortedHint.decreasingHint) = true
      then b - 1 - (ph.1 - a) else ph.1) ∧
      (if decide (ph.2 = sortedHint.decreasingHint) = true
      then b - 1 - (ph.1 - a) else ph.1) < b := by
    split_ifs <;> omega
  have hw12 := hw1.trans hw2
  have hps := partialInsertionSort_spec hr d2 (by omega : a < b) (hlow.carry hw12)
  refine ⟨?_, hp.1, hp.2, ?_⟩
  · split_ifs <;> first | exact hw12.trans hps.1 | exact hw12
  · split_ifs <;> first | exact hps.2 | exact fun h => absurd h (by simp)

theorem sortedOn_join {rank : α → Int} {a m b : Nat} {d : Nat → α}
    (h1 : SortedOn rank a m d) (h2 : SortedOn rank (m + 1) b d)
    (hl : ∀ k, a ≤ k → k < m → rank (d k) ≤ rank (d m))
    (hg : ∀ k, m < k → k < b → rank (d m) ≤ rank (d k)) : SortedOn rank a b d := by
  intro x y hx hxy hy
  by_cases hxm : x < m
  · by_cases hym : y < m
    · exact h1 x y hx hxy hym
    · by_cases hym2 : y = m
      · rw [hym2]; exact hl x hx hxm
      · exact le_trans (hl x hx hxm) (hg y (by omega) hy)
  · by_cases hxm2 : x = m
    · by_cases hym2 : y = m
      · rw [hxm2, hym2]
      · rw [hxm2]; exact hg y (by omega) hy
    · exact h2 x y (by omega) hxy hy

/-- The pattern-defeating quicksort loop returns (the round bound is never used
up), and its result is sorted on `[a, b)` and a rearrangement within `[a, b)`. -/
theorem pdqsortLoop_spec {less : α → α → Bool} {rank : α → Int} (hr : RankLess less rank) :
    ∀ fuel d a b limit wb wp, b - a < fuel → a ≤ b → LowBound rank a b d →
      ∃ d', pdqsortLoop less fuel d a b limit wb wp = some d' ∧
        SortedOn rank a b d' ∧ Within a b d d' := by
  intro fuel
  induction fuel with
  | zero => intro d a b limit wb wp h; omega
  | succ fuel ih =>
    intro d a b limit wb wp hfuel hab hlow
    simp only [pdqsortLoop]
    by_cases h12 : b - a ≤ 12
    · rw [if_pos h12]
      have := insertionSort_spec hr d a b
      exact ⟨_, rfl, this.1, this.2.toWithin⟩
    rw [if_neg h12]
    by_cases hlim : limit = 0
    · rw [if_pos hlim]
      have := heapSort_spec hr d hab
      exact ⟨_, rfl, this.1, this.2⟩
    rw [if_neg hlim]
    obtain ⟨p1, p2, p3, p4⟩ := pdqsortPrepare_spec hr d limit wb wp (by omega) hlow
    generalize pdqsortPrepare less d a b limit wb wp = pre at p1 p2 p3 p4 ⊢
    obtain ⟨d3, pivot, limit', fin⟩ := pre
    simp only at p1 p2 p3 p4 ⊢
    have hlow3 := hlow.carry p1
    by_cases hfin : fin = true
    · rw [if_pos hfin]
      exact ⟨_, rfl, p4 hfin, p1⟩
    rw [if_neg hfin]
    by_cases heq : (decide (a > 0) && !Less less d3 (a - 1) pivot) = true
    · rw [if_pos heq]
      simp only [Bool.and_eq_true, decide_eq_true_eq, Bool.not_eq_true'] at heq
      obtain ⟨ha0, hnl⟩ := heq
      have hnl' : ¬ (rank (d3 (a - 1)) < rank (d3 pivot)) := by
        intro hlt
        have := (less_iff hr d3 (a - 1) pivot).2 hlt
        rw [hnl] at this
        exact absurd this (by decide)
      have hmin : ∀ k, a ≤ k → k < b → rank (d3 pivot) ≤ rank (d3 k) := by
        intro k hk1 hk2
        have := hlow3 ha0 k hk1 hk2
        omega
      obtain ⟨d4, mid, e, m1, m2, w4, q1, q2⟩ := partitionEqual_spec hr d3 p2 p3 hmin
      rw [e]
      simp only
      have hlow4 : LowBound rank mid b d4 := by
        intro _ k hk1 hk2
        have := q1 (mid - 1) (by omega) (by omega)
        have := q2 k hk1 hk2
        omega
      obtain ⟨d5, e5, s5, w5⟩ := ih d4 mid b limit' wb wp (by omega) m2 hlow4
      refine ⟨d5, e5, ?_, (p1.trans w4).trans (w5.mono (by omega) (le_refl _))⟩
      intro x y hx hxy hy
      by_cases hxm : x < mid
      · rw [w5.outside (k := x) (Or.inl hxm)]
        by_cases hym : y < mid
        · rw [w5.outside (k := y) (Or.inl hym), q1 x hx hxm, q1 y (by omega) hym]
        · have := w5.forall (P := fun e => rank (d3 pivot) < rank e) q2 y (by omega) hy
          rw [q1 x hx hxm]
          exact le_of_lt this
      · exact s5 x y (by omega) hxy hy
    rw [if_neg heq]
    obtain ⟨d4, mid, ap, e, m1, m2, w4, q1, q2⟩ := partition_spec hr d3 p2 p3
    rw [e]
    simp only
    have hlow4 := hlow3.carry w4
    by_cases hside : mid - a < b - mid
    · rw [if_pos hside]
      obtain ⟨d5, e5, s5, w5⟩ := ih d4 a mid limit' true true (by omega) m1
        (fun h0 k hk1 hk2 => hlow4 h0 k hk1 (by omega))
      rw [e5]
      simp only
      have hlow5 : LowBound rank (mid + 1) b d5 := by
        intro _ k hk1 hk2
        have e1 : mid + 1 - 1 = mid := by omega
        rw [e1, w5.outside (k := mid) (Or.inr (le_refl _)), w5.outside (k := k) (Or.inr (by omega))]
        exact q2 k (by omega) hk2
      obtain ⟨d6, e6, s6, w6⟩ := ih d5 (mid + 1) b limit' (decide (mid - a ≥ (b - a) / 8)) ap
        (by omega) (by omega) hlow5
      refine ⟨d6, e6, ?_, ((p1.trans w4).trans (w5.mono (le_refl _) (by omega))).trans
        (w6.mono (by omega) (le_refl _))⟩
      have em : d6 mid = d4 mid := by
        rw [w6.outside (k := mid) (Or.inl (by omega)), w5.outside (k := mid) (Or.inr (le_refl _))]
      apply sortedOn_join (m := mid)
      · exact s5.within_outside w6 (Or.inl (by omega))
      · exact s6
      · intro k hk1 hk2
        rw [em, w6.outside (k := k) (Or.inl (by omega))]
        exact le_of_lt (w5.forall (P := fun e => rank e < rank (d4 mid)) q1 k hk1 hk2)
      · intro k hk1 hk2
        rw [em]
        apply w6.forall (P := fun e => rank (d4 mid) ≤ rank e) _ k (by omega) hk2
        intro k' hk1' hk2'
        rw [w5.outside (k := k') (Or.inr (by omega))]
        exact q2 k' (by omega) hk2'
    · rw [if_neg hside]
      have hlow4r : LowBound rank (mid + 1) b d4 := by
        intro _ k hk1 hk2
        have e1 : mid + 1 - 1 = mid := by omega
        rw [e1]
        exact q2 k (by omega) hk2
      obtain ⟨d5, e5, s5, w5⟩ := ih d4 (mid + 1) b limit' true true (by omega) (by omega) hlow4r
      rw [e5]
      simp only
      have hlow5 : LowBound rank a mid d5 := by
        intro h0 k hk1 hk2
        rw [w5.outside (k := a - 1) (Or.inl (by omega)), w5.outside (k := k) (Or.inl (by omega))]
        exact hlow4 h0 k hk1 (by omega)
      obtain ⟨d6, e6, s6, w6⟩ := ih d5 a mid limit' (decide (b - mid ≥ (b - a) / 8)) ap
        (by omega) m1 hlow5
      refine ⟨d6, e6, ?_, ((p1.trans w4).trans (w5.mono (by omega) (le_refl _))).trans
        (w6.mono (le_refl _) (by omega))⟩
      have em : d6 mid = d4 mid := by
        rw [w6.outside (k := mid) (Or.inr (le_refl _)), w5.outside (k := mid) (Or.inl (by omega))]
      apply sortedOn_join (m := mid)
      · exact s6
      · exact s5.within_outside w6 (Or.inr (by omega))
      · intro k hk1 hk2
        rw [em]
        apply w6.forall (P := fun e => rank e ≤ rank (d4 mid)) _ k hk1 hk2
        intro k' hk1' hk2'
        rw [w5.outside (k := k') (Or.inl (by omega))]
        exact le_of_lt (q1 k' hk1' hk2')
      · intro k hk1 hk2
        rw [em, w6.outside (k := k) (Or.inr (by omega))]
        exact w5.forall (P := fun e => rank (d4 mid) ≤ rank e)
          (fun k' h1 h2 => q2 k' (by omega) h2) k (by omega) hk2

theorem map_perm_range {σ : Equiv.Perm Nat} {n : Nat}
    (h : ∀ k, k < 0 ∨ n ≤ k → σ k = k) : ((List.range n).map σ).Perm (List.range n) := by
  rw [List.perm_ext_iff_of_nodup ((List.nodup_range n).map σ.injective) (List.nodup_range n)]
  intro m
  simp only [List.mem_map, List.mem_range]
  constructor
  · rintro ⟨k, hk, rfl⟩
    exact (perm_maps_range h (Nat.zero_le _) hk).2
  · intro hm
    refine ⟨σ.symm m, ?_, by simp⟩
    by_contra hc
    have := h (σ.symm m) (Or.inr (by omega))
    simp only [Equiv.apply_symm_apply] at this
    omega

theorem Within.perm_map {n : Nat} {d d' : Nat → α} (h : Within 0 n d d') :
    ((List.range n).map d').Perm ((List.range n).map d) := by
  obtain ⟨σ, f, e⟩ := h
  have e1 : (List.range n).map d' = ((List.range n).map σ).map d := by
    rw [List.map_map]
    exact List.map_congr_left (fun k _ => e k)
  rw [e1]
  exact (map_perm_range f).map d

theorem SortedOn.pairwise_map {rank : α → Int} {n : Nat} {d : Nat → α}
    (h : SortedOn rank 0 n d) :
    List.Pairwise (fun x y => rank x ≤ rank y) ((List.range n).map d) := by
  rw [List.pairwise_map]
  have := List.pairwise_lt_range n
  refine List.Pairwise.imp_of_mem ?_ this
  intro i j hi hj hij
  exact h i j (Nat.zero_le _) (le_of_lt hij) (List.mem_range.1 hj)

theorem map_getD_range (x : List α) (e : α) :
    (List.range x.length).map (fun i => x.getD i e) = x := by
  apply List.ext_getElem
  · simp
  · intro i h1 h2
    simp only [List.getElem_map, List.getElem_range]
    simp [List.getD_eq_getElem?_getD, List.getElem?_eq_getElem h2]

/-- A rearrangement that keeps equal ranks in order leaves, for every rank `v`,
the subsequence of the elements of rank `v` unchanged. -/
theorem StableWithin.filter_eq {rank : α → Int} {n : Nat} {d d' : Nat → α}
    (h : StableWithin rank 0 n d d') (v : Int) :
    ((List.range n).map d').filter (fun x => decide (rank x = v)) =
      ((List.range n).map d).filter (fun x => decide (rank x = v)) := by
  obtain ⟨σ, ⟨f, e⟩, st⟩ := h
  have e1 : ((List.range n).map d').filter (fun x => decide (rank x = v)) =
      (((List.range n).filter (fun k => decide (rank (d' k) = v))).map σ).map d := by
    rw [List.filter_map, List.map_map]
    exact List.map_congr_left (fun k _ => e k)
  have e2 : ((List.range n).map d).filter (fun x => decide (rank x = v)) =
      ((List.range n).filter (fun k => decide (rank (d k) = v))).map d := by
    rw [List.filter_map]; rfl
  rw [e1, e2]
  congr 1
  have s1 : (((List.range n).filter (fun k => decide (rank (d' k) = v))).map σ).Sorted
      (· < ·) := by
    unfold List.Sorted
    rw [List.pairwise_map]
    have hp : List.Pairwise (· < ·) ((List.range n).filter
        (fun k => decide (rank (d' k) = v))) :=
      (List.pairwise_lt_range n).sublist (List.filter_sublist _)
    refine List.Pairwise.imp_of_mem ?_ hp
    intro p q hp hq hpq
    simp only [List.mem_filter, List.mem_range, decide_eq_true_eq] at hp hq
    exact st p q (Nat.zero_le _) hpq hq.1 (by rw [hp.2, hq.2])
  have s2 : ((List.range n).filter (fun k => decide (rank (d k) = v))).Sorted (· < ·) :=
    (List.pairwise_lt_range n).sublist (List.filter_sublist _)
  apply List.eq_of_perm_of_sorted _ s1 s2
  rw [List.perm_ext_iff_of_nodup s1.nodup s2.nodup]
  intro m
  simp only [List.mem_map, List.mem_filter, List.mem_range, decide_eq_true_eq]
  constructor
  · rintro ⟨k, ⟨hk, hv⟩, rfl⟩
    exact ⟨(perm_maps_range f (Nat.zero_le _) hk).2, by rw [← e k]; exact hv⟩
  · rintro ⟨hm, hv⟩
    have hlt : σ.symm m < n := by
      by_contra hc
      have := f (σ.symm m) (Or.inr (by omega))
      simp only [Equiv.apply_symm_apply] at this
      omega
    exact ⟨σ.symm m, ⟨hlt, by rw [e]; simpa using hv⟩, by simp⟩

/-- The embedded `sort.Slice` returns, with a permutation of its input whose ranks are
non-decreasing, for every closure that compares by an integer rank. -/
theorem sortSlice_spec {less : α → α → Bool} {rank : α → Int} (hr : RankLess less rank)
    (x : List α) :
    ∃ r, sortSlice less x = some r ∧ r.Perm x ∧
      r.Pairwise (fun u v => rank u ≤ rank v) := by
  cases x with
  | nil => exact ⟨[], rfl, List.Perm.refl _, List.Pairwise.nil⟩
  | cons e t =>
    obtain ⟨d', h1, h2, h3⟩ := pdqsortLoop_spec hr ((e :: t).length - 0 + 1)
      (fun i => (e :: t).getD i e) 0 (e :: t).length (bitsLen (e :: t).length) true true
      (by omega) (Nat.zero_le _) (fun h => absurd h (lt_irrefl 0))
    refine ⟨(List.range (e :: t).length).map d', ?_, ?_, h2.pairwise_map⟩
    · simp only [sortSlice, pdqsort_func]
      rw [h1]
    · have := h3.perm_map
      rw [map_getD_range] at this
      exact this

/-- On at most 12 elements `sort.Slice` is an insertion sort: the elements of
each rank keep their relative order. -/
theorem sortSlice_stable {less : α → α → Bool} {rank : α → Int} (hr : RankLess less rank)
    (x : List α) (hlen : x.length ≤ 12) :
    ∃ r, sortSlice less x = some r ∧
      ∀ v, r.filter (fun u => decide (rank u = v)) = x.filter (fun u => decide (rank u = v)) := by
  cases x with
  | nil => exact ⟨[], rfl, fun _ => rfl⟩
  | cons e t =>
    have hs := insertionSort_spec hr (fun i => (e :: t).getD i e) 0 (e :: t).length
    refine ⟨(List.range (e :: t).length).map
      (insertionSort_func less (fun i => (e :: t).getD i e) 0 (e :: t).length), ?_, ?_⟩
    · simp only [sortSlice, pdqsort_func, pdqsortLoop]
      rw [if_pos (by omega)]
    · intro v
      have := hs.2.filter_eq v
      rw [map_getD_range] at this
      exact this

/-- The closure of `closeVoting` compares by the negated vote count. -/
theorem moreVotes_rank : RankLess moreVotes (fun t => - t.votes) := by
  intro x y
  simp only [moreVotes, decide_eq_true_eq]
  omega

/-- Claim C1 (as stated) fails: on thirteen tallies the ranking of `closeVoting`
puts topic 6 before topics 2 and 0, which have the same vote count and were
fetched earlier.  With 13 elements `pdqsort_func` does not use insertion sort at
once: `choosePivot_func` picks position 6, `partition_func` swaps it to the front,
swaps positions 1 and 12, and finally swaps the pivot with position 1; the two
parts are then short enough for insertion sort, which finds them sorted. -/
theorem closeVoting_ranking_not_stable :
    rankIssueVotes thirteenTallies = some thirteenRanked ∧
      ¬ KeepsTieOrder thirteenTallies thirteenRanked :=
  ⟨by decide, fun h => absurd (h 1) (by decide)⟩

/-- Claim C1 (amended): for at most 12 tallies the ranking of `closeVoting` is
stable: tallies with equal vote counts keep their fetch order, and vote counts
are non-increasing. -/
theorem closeVoting_ranking_stable_upto_12 (tallies : List issueVote)
    (hlen : tallies.length ≤ 12) :
    ∃ ranked, rankIssueVotes tallies = some ranked ∧ KeepsTieOrder tallies ranked ∧
      ranked.Pairwise (fun x y => x.votes ≥ y.votes) := by
  obtain ⟨r, h1, h2⟩ := sortSlice_stable moreVotes_rank tallies hlen
  obtain ⟨r', h1', _, h3⟩ := sortSlice_spec moreVotes_rank tallies
  have e : r' = r := by
    rw [h1] at h1'; exact (Option.some.inj h1').symm
  subst e
  refine ⟨r', h1, fun v => ?_, h3.imp (fun {a b} (h : -a.votes ≤ -b.votes) => (by omega : a.votes ≥ b.votes))⟩
  have := h2 (-v)
  have c : ∀ l : List issueVote, l.filter (fun u => decide (-u.votes = -v)) =
      l.filter (fun t => decide (t.votes = v)) := by
    intro l
    apply List.filter_congr
    intro x _
    simp
  rw [c, c] at this
  exact this

/-- The amended claim C1 at the scenario of the specification: the three tallies
Alpha(2), Beta(5), Gamma(5). -/
theorem closeVoting_ranking_stable_upto_12_witness :
    ([{ issue := { Number := 1, Title := "Alpha", PullRequestLinks := none }, votes := 2 },
      { issue := { Number := 2, Title := "Beta", PullRequestLinks := none }, votes := 5 },
      { issue := { Number := 3, Title := "Gamma", PullRequestLinks := none }, votes := 5 }] :
        List issueVote).length ≤ 12 ∧
    ∃ ranked,
      rankIssueVotes
        [{ issue := { Number := 1, Title := "Alpha", PullRequestLinks := none }, votes := 2 },
         { issue := { Number := 2, Title := "Beta", PullRequestLinks := none }, votes := 5 },
         { issue := { Number := 3, Title := "Gamma", PullRequestLinks := none }, votes := 5 }]
        = some ranked ∧
      KeepsTieOrder
        [{ issue := { Number := 1, Title := "Alpha", PullRequestLinks := none }, votes := 2 },
         { issue := { Number := 2, Title := "Beta", PullRequestLinks := none }, votes := 5 },
         { issue := { Number := 3, Title := "Gamma", PullRequestLinks := none }, votes := 5 }]
        ranked ∧
      ranked.Pairwise (fun x y => x.votes ≥ y.votes) :=
  ⟨by decide, closeVoting_ranking_stable_upto_12 _ (by decide)⟩

/-- The ranking scenarios of the specification, evaluated. -/
theorem closeVoting_ranking_scenarios :
    rankIssueVotes
        [{ issue := { Number := 1, Title := "Alpha", PullRequestLinks := none }, votes := 2 },
         { issue := { Number := 2, Title := "Beta", PullRequestLinks := none }, votes := 5 },
         { issue := { Number := 3, Title := "Gamma", PullRequestLinks := none }, votes := 5 }]
      = some
        [{ issue := { Number := 2, Title := "Beta", PullRequestLinks := none }, votes := 5 },
         { issue := { Number := 3, Title := "Gamma", PullRequestLinks := none }, votes := 5 },
         { issue := { Number := 1, Title := "Alpha", PullRequestLinks := none }, votes := 2 }] ∧
    rankIssueVotes
        [{ issue := { Number := 1, Title := "A", PullRequestLinks := none }, votes := 5 },
         { issue := { Number := 2, Title := "B", PullRequestLinks := none }, votes := 5 },
         { issue := { Number := 3, Title := "C", PullRequestLinks := none }, votes := 3 }]
      = some
        [{ issue := { Number := 1, Title := "A", PullRequestLinks := none }, votes := 5 },
         { issue := { Number := 2, Title := "B", PullRequestLinks := none }, votes := 5 },
         { issue := { Number := 3, Title := "C", PullRequestLinks := none }, votes := 3 }] := by
  constructor <;> decide

/-- Claim C2: the sequence passed to `createRankedListMarkdown` (the tallies
after `sort.Slice`) exists for every sequence of tallies, is a permutation of
the tallies, and its vote counts are non-increasing. -/
theorem closeVoting_ranked_is_sorted_permutation (tallies : List issueVote) :
    ∃ ranked, rankIssueVotes tallies = some ranked ∧ ranked.Perm tallies ∧
      ranked.Pairwise (fun x y => x.votes ≥ y.votes) := by
  obtain ⟨r, h1, h2, h3⟩ := sortSlice_spec moreVotes_rank tallies
  exact ⟨r, h1, h2, h3.imp (fun {a b} (h : -a.votes ≤ -b.votes) => (by omega : a.votes ≥ b.votes))⟩

/-! ### `addVotingComment` -/

/-- Claim C3, failing input: a first run of `addVotingComment` on a topic with
100 ordinary comments leaves the topic `busyTopic`, which has a marked comment;
a second run (which lists only the first 100 comments) asks the remote to create
another one, and the topic then has two marked comments. -/
theorem addVotingComment_duplicates_beyond_first_page :
    publishOn hundredComments 2 { Number := 7, Title := "T", PullRequestLinks := none } =
        busyTopic ∧
      hasVotingComment busyTopic = true ∧
      createdBodies (addVotingComment (topicClient busyTopic 3) "o" "r"
        { Number := 7, Title := "T", PullRequestLinks := none }).2 = [commentBody] ∧
      ((publishOn busyTopic 3 { Number := 7, Title := "T", PullRequestLinks := none }).filter
        isVotingComment).length = 2 := by
  decide

/-- When the listed page of comments holds a marked comment, `addVotingComment`
returns without error and without asking the remote to create a comment. -/
theorem addVotingComment_skips_when_marked (client : Client) (owner repo : String)
    (issue : Issue) (comments : List IssueComment)
    (hlist : client.ListComments owner repo issue.Number { Page := 0, PerPage := 100 } =
      .ok comments)
    (hmark : hasVotingComment comments = true) :
    (addVotingComment client owner repo issue).1 = .ok () ∧
      createdBodies (addVotingComment client owner repo issue).2 = [] := by
  simp [addVotingComment, hlist, hmark, createdBodies]

/-! ### `countVotes` -/

theorem countThumbsUp_foldl (reactions : List Reaction) (n : Int) :
    reactions.foldl
      (fun count reaction => if reaction.Content = some votingEmoji then count + 1 else count) n =
      n + (reactions.filter (fun r => decide (r.Content = some votingEmoji))).length := by
  induction reactions generalizing n with
  | nil => simp
  | cons r rest ih =>
    simp only [List.foldl_cons, List.filter_cons]
    rw [ih]
    by_cases h : r.Content = some votingEmoji
    · simp only [h, if_true, decide_True, List.length_cons]
      push_cast
      omega
    · simp only [h, if_false, decide_False]
      simp

/-- The reaction loop of `countVotes` counts the reactions whose content is "+1". -/
theorem countThumbsUp_eq (reactions : List Reaction) :
    countThumbsUp reactions =
      (reactions.filter (fun r => decide (r.Content = some votingEmoji))).length := by
  unfold countThumbsUp
  rw [countThumbsUp_foldl]
  simp

theorem countVotesScan_of_find (client : Client) (owner repo : String)
    (comments : List IssueComment) (c : IssueComment)
    (hfind : comments.find? isVotingComment = some c) :
    countVotesScan client owner repo comments =
      match client.ListIssueCommentReactions owner repo c.ID { Page := 0, PerPage := 100 } with
      | .error err => (.error ("failed to list reactions: " ++ err),
          [Event.apiListReactions owner repo c.ID { Page := 0, PerPage := 100 }])
      | .ok reactions => (.ok (countThumbsUp reactions),
          [Event.apiListReactions owner repo c.ID { Page := 0, PerPage := 100 }]) := by
  induction comments with
  | nil => simp at hfind
  | cons x rest ih =>
    simp only [countVotesScan]
    by_cases hx : isVotingComment x = true
    · rw [if_pos hx]
      simp only [List.find?_cons, hx] at hfind
      have e : x = c := Option.some.inj hfind
      subst e
      cases client.ListIssueCommentReactions owner repo x.ID { Page := 0, PerPage := 100 } <;> rfl
    · rw [if_neg hx]
      simp only [List.find?_cons] at hfind
      have hx' : isVotingComment x = false := by simpa using hx
      rw [hx'] at hfind
      exact ih hfind

theorem countVotesScan_of_unmarked (client : Client) (owner repo : String)
    (comments : List IssueComment) (h : ∀ c ∈ comments, isVotingComment c = false) :
    countVotesScan client owner repo comments = (.ok 0, []) := by
  induction comments with
  | nil => rfl
  | cons x rest ih =>
    simp only [countVotesScan]
    rw [if_neg (by simp [h x (List.mem_cons_self _ _)])]
    exact ih (fun c hc => h c (List.mem_cons_of_mem _ hc))

/-- Claim C4: when the fetched comments include a marked comment (`c` is the first
one) and the reactions of `c` are fetched successfully, `countVotes` returns the
number of fetched reactions whose content is "+1"; dropping any reaction whose
content is different or missing does not change that number. -/
theorem countVotes_counts_thumbs_up (client : Client) (owner repo : String) (issue : Issue)
    (comments : List IssueComment) (c : IssueComment) (reactions : List Reaction)
    (hlist : client.ListComments owner repo issue.Number { Page := 0, PerPage := 100 } =
      .ok comments)
    (hfind : comments.find? isVotingComment = some c)
    (hreact : client.ListIssueCommentReactions owner repo c.ID { Page := 0, PerPage := 100 } =
      .ok reactions) :
    (countVotes client owner repo issue).1 =
        .ok ((reactions.filter (fun r => decide (r.Content = some "+1"))).length : Int) ∧
      ∀ pre r post, reactions = pre ++ r :: post → r.Content ≠ some "+1" →
        ((pre ++ post).filter (fun r => decide (r.Content = some "+1"))).length =
          (reactions.filter (fun r => decide (r.Content = some "+1"))).length := by
  constructor
  · simp only [countVotes, hlist]
    rw [countVotesScan_of_find client owner repo comments c hfind, hreact]
    simp only [countThumbsUp_eq]
    rfl
  · intro pre r post e hr
    subst e
    simp [List.filter_append, List.filter_cons, hr]

/-- Claim C4 at `sampleClient`: two of the four fetched reactions count. -/
theorem countVotes_counts_thumbs_up_witness :
    (countVotes sampleClient "o" "r" { Number := 7, Title := "T", PullRequestLinks := none }).1 =
        .ok ((([{ Content := some "+1" }, { Content := some "heart" }, { Content := none },
          { Content := some "+1" }] : List Reaction).filter
            (fun r => decide (r.Content = some "+1"))).length : Int) ∧
      ∀ pre r post,
        ([{ Content := some "+1" }, { Content := some "heart" }, { Content := none },
          { Content := some "+1" }] : List Reaction) = pre ++ r :: post →
        r.Content ≠ some "+1" →
        ((pre ++ post).filter (fun r => decide (r.Content = some "+1"))).length =
          (([{ Content := some "+1" }, { Content := some "heart" }, { Content := none },
            { Content := some "+1" }] : List Reaction).filter
              (fun r => decide (r.Content = some "+1"))).length :=
  countVotes_counts_thumbs_up sampleClient "o" "r"
    { Number := 7, Title := "T", PullRequestLinks := none }
    [{ ID := 10, Body := some "nice" }, { ID := 20, Body := none },
     { ID := 30, Body := some commentBody }]
    { ID := 30, Body := some commentBody } _ rfl (by decide) rfl

/-- Claim C5: when none of the listed comments carries the marker (a comment
without body never does), `countVotes` returns 0 without error and its only
remote call is the comment listing: no reactions are fetched. -/
theorem countVotes_zero_without_marked_comment (client : Client) (owner repo : String)
    (issue : Issue) (comments : List IssueComment)
    (hlist : client.ListComments owner repo issue.Number { Page := 0, PerPage := 100 } =
      .ok comments)
    (hnone : ∀ c ∈ comments, isVotingComment c = false) :
    countVotes client owner repo issue =
        (.ok 0, [Event.apiListComments owner repo issue.Number { Page := 0, PerPage := 100 }]) ∧
      ∀ id, isVotingComment { ID := id, Body := none } = false := by
  constructor
  · simp only [countVotes, hlist]
    rw [countVotesScan_of_unmarked client owner repo comments hnone]
    rfl
  · intro id; rfl

/-- Claim C5 at `unmarkedClient`: zero votes, and the reactions are never fetched. -/
theorem countVotes_zero_without_marked_comment_witness :
    countVotes unmarkedClient "o" "r" { Number := 7, Title := "T", PullRequestLinks := none } =
        (.ok 0, [Event.apiListComments "o" "r" 7 { Page := 0, PerPage := 100 }]) ∧
      ∀ id, isVotingComment { ID := id, Body := none } = false :=
  countVotes_zero_without_marked_comment unmarkedClient "o" "r"
    { Number := 7, Title := "T", PullRequestLinks := none }
    [{ ID := 10, Body := some "+1 from me" }, { ID := 20, Body := none }] rfl (by decide)

/-! ### The tally loop of `closeVoting` -/

theorem countAllVotes_tallies (client : Client) (owner repo : String) (issues : List Issue) :
    ∀ (acc : List issueVote) (ev : List Event),
      (countAllVotes client owner repo issues acc ev).1 =
        acc ++ issues.map (tallyOf client owner repo) := by
  induction issues with
  | nil => intro acc ev; simp [countAllVotes]
  | cons issue rest ih =>
    intro acc ev
    simp only [countAllVotes, List.map_cons]
    rw [ih]
    simp only [List.append_assoc, List.singleton_append, tallyOf]
    cases (countVotes client owner repo issue).1 <;> rfl

/-- Claim C7: whatever topics were fetched and whichever `countVotes` calls fail,
the tally list built by `closeVoting` has exactly one entry per fetched topic, in
fetch order; a topic whose `countVotes` failed has 0 votes, every other topic has
the count `countVotes` returned. -/
theorem closeVoting_tallies_every_topic (client : Client) (owner repo : String)
    (issues : List Issue) (ev : List Event) :
    (countAllVotes client owner repo issues [] ev).1 =
        issues.map (fun issue =>
          { issue := issue
            votes :=
              match (countVotes client owner repo issue).1 with
              | .ok votes => votes
              | .error _ => 0 }) ∧
      ((countAllVotes client owner repo issues [] ev).1.map (fun t => t.issue)) = issues := by
  have h := countAllVotes_tallies client owner repo issues [] ev
  rw [List.nil_append] at h
  refine ⟨h, ?_⟩
  rw [h, List.map_map]
  conv => rhs; rw [← List.map_id issues]
  rfl

/-! ### `getOpenIssues` -/

theorem appendNonPullRequests_eq (allIssues issues : List Issue) :
    appendNonPullRequests allIssues issues =
      allIssues ++ issues.filter (fun i => decide (i.PullRequestLinks = none)) := by
  unfold appendNonPullRequests
  induction issues generalizing allIssues with
  | nil => simp
  | cons x rest ih =>
    simp only [List.foldl_cons, List.filter_cons]
    rw [ih]
    by_cases h : x.PullRequestLinks = none
    · simp [h]
    · simp [h]

theorem getOpenIssuesLoop_pages (client : Client) (owner repo : String) :
    ∀ (pages : List (List Issue)) (fuel : Nat) (opts : IssueListByRepoOptions)
      (acc : List Issue) (ev : List Event),
      fetchesPages client owner repo opts pages = true → pages.length ≤ fuel →
      ∃ ev', getOpenIssuesLoop client owner repo fuel opts acc ev =
        some (.ok (acc ++ (pages.map
          (fun p => p.filter (fun i => decide (i.PullRequestLinks = none)))).flatten), ev') := by
  intro pages
  induction pages with
  | nil => intro fuel opts acc ev h; simp [fetchesPages] at h
  | cons page rest ih =>
    intro fuel opts acc ev h hfuel
    cases fuel with
    | zero => simp at hfuel
    | succ fuel =>
      simp only [fetchesPages] at h
      simp only [getOpenIssuesLoop]
      cases hcall : client.ListByRepo owner repo opts with
      | error e => rw [hcall] at h; simp at h
      | ok r =>
        obtain ⟨issues, resp⟩ := r
        rw [hcall] at h
        simp only [Bool.and_eq_true, decide_eq_true_eq] at h
        obtain ⟨hpage, hrest⟩ := h
        subst hpage
        simp only [appendNonPullRequests_eq]
        cases rest with
        | nil =>
          simp only [List.isEmpty_nil, if_true, decide_eq_true_eq] at hrest
          rw [if_pos hrest]
          exact ⟨ev ++ [Event.apiListByRepo owner repo opts], by simp⟩
        | cons q rest' =>
          simp only [List.isEmpty_cons, Bool.false_eq_true, if_false, Bool.and_eq_true,
            decide_eq_true_eq] at hrest
          rw [if_neg hrest.1]
          obtain ⟨ev', he⟩ := ih fuel _ (acc ++ issues.filter
            (fun i => decide (i.PullRequestLinks = none))) (ev ++ [Event.apiListByRepo owner repo opts])
            hrest.2 (by simpa using hfuel)
          exact ⟨ev', by rw [he]; simp⟩

/-- Claim C6: for every label filter and every sequence of successfully fetched
pages, `getOpenIssues` returns exactly the items of those pages without
pull-request linkage, page after page in arrival order with the order within a
page kept; no returned entry has its pull-request linkage set. -/
theorem getOpenIssues_returns_non_pull_requests (client : Client) (owner repo label : String)
    (pages : List (List Issue)) (fuel : Nat)
    (hfetch : fetchesPages client owner repo (getOpenIssuesOpts label) pages = true)
    (hfuel : pages.length ≤ fuel) :
    ∃ ev, getOpenIssues client owner repo label fuel =
        some (.ok ((pages.map
          (fun p => p.filter (fun i => decide (i.PullRequestLinks = none)))).flatten), ev) ∧
      ∀ i ∈ (pages.map
          (fun p => p.filter (fun i => decide (i.PullRequestLinks = none)))).flatten,
        i.PullRequestLinks = none := by
  obtain ⟨ev, h⟩ := getOpenIssuesLoop_pages client owner repo pages fuel
    (getOpenIssuesOpts label) [] [] hfetch hfuel
  rw [List.nil_append] at h
  refine ⟨ev, h, ?_⟩
  intro i hi
  simp only [List.mem_flatten, List.mem_map] at hi
  obtain ⟨l, ⟨p, _, rfl⟩, hil⟩ := hi
  simpa using (List.mem_filter.1 hil).2

/-- Claim C6 at `twoPageClient`: two pages, the pull request is left out. -/
theorem getOpenIssues_returns_non_pull_requests_witness :
    ∃ ev, getOpenIssues twoPageClient "o" "r" "hack" 2 =
        some (.ok (([[{ Number := 1, Title := "A", PullRequestLinks := none },
              { Number := 2, Title := "B", PullRequestLinks := some "pulls/2" }],
             [{ Number := 3, Title := "C", PullRequestLinks := none }]] : List (List Issue)).map
          (fun p => p.filter (fun i => decide (i.PullRequestLinks = none)))).flatten, ev) ∧
      ∀ i ∈ (([[{ Number := 1, Title := "A", PullRequestLinks := none },
              { Number := 2, Title := "B", PullRequestLinks := some "pulls/2" }],
             [{ Number := 3, Title := "C", PullRequestLinks := none }]] : List (List Issue)).map
          (fun p => p.filter (fun i => decide (i.PullRequestLinks = none)))).flatten,
        i.PullRequestLinks = none :=
  getOpenIssues_returns_non_pull_requests twoPageClient "o" "r" "hack" _ 2 (by decide)
    (by decide)

/-! ### `main` -/

/-- Claim C8: when a required input is missing (empty command, owner, repo or
token, or empty discussion id for close-voting), `main` ends with a fatal error
(exit status 1) and its only event is the fatal line: no remote API call is
attempted. -/
theorem main_fatal_before_any_call (flags : Flags) (token : String) (client : Client)
    (fuel : Nat)
    (hmissing : flags.command = "" ∨ flags.owner = "" ∨ flags.repo = "" ∨ token = "" ∨
      (flags.command = "close-voting" ∧ flags.discussionID = "")) :
    ∃ line, main flags token client fuel = some { events := [Event.fatal line], status := 1 } ∧
      ([Event.fatal line] : List Event).all (fun e => !e.isApiCall) = true := by
  unfold main
  by_cases h1 : flags.command = ""
  · rw [if_pos h1]; exact ⟨_, rfl, rfl⟩
  rw [if_neg h1]
  by_cases h2 : (flags.owner = "" || flags.repo = "") = true
  · rw [if_pos h2]; exact ⟨_, rfl, rfl⟩
  rw [if_neg h2]
  by_cases h3 : token = ""
  · rw [if_pos h3]; exact ⟨_, rfl, rfl⟩
  rw [if_neg h3]
  have h4 : flags.command = "close-voting" ∧ flags.discussionID = "" := by
    rcases hmissing with h | h | h | h | h
    · exact absurd h h1
    · exact absurd (by simp [h]) h2
    · exact absurd (by simp [h]) h2
    · exact absurd h h3
    · exact h
  rw [if_neg (by rw [h4.1]; decide), if_pos h4.1, if_pos h4.2]
  exact ⟨_, rfl, rfl⟩

/-- Claim C8 at a start-voting invocation without owner. -/
theorem main_fatal_before_any_call_witness :
    ∃ line, main (Flags.mk "" "r" "" "start-voting" "") "token" twoPageClient 5 =
        some { events := [Event.fatal line], status := 1 } ∧
      ([Event.fatal line] : List Event).all (fun e => !e.isApiCall) = true :=
  main_fatal_before_any_call _ "token" twoPageClient 5 (Or.inr (Or.inl rfl))

/-! ### What `startVoting` and `closeVoting` print -/

theorem printed_append (a b : List Event) : printed (a ++ b) = printed a ++ printed b := by
  simp [printed, List.filterMap_append]

theorem getOpenIssuesLoop_printed (client : Client) (owner repo : String) :
    ∀ (fuel : Nat) (opts : IssueListByRepoOptions) (acc : List Issue) (ev : List Event)
      (r : Except String (List Issue)) (ev' : List Event),
      getOpenIssuesLoop client owner repo fuel opts acc ev = some (r, ev') →
      printed ev = [] → printed ev' = [] := by
  intro fuel
  induction fuel with
  | zero => intro opts acc ev r ev' h; simp [getOpenIssuesLoop] at h
  | succ fuel ih =>
    intro opts acc ev r ev' h hp
    simp only [getOpenIssuesLoop] at h
    have hp' : printed (ev ++ [Event.apiListByRepo owner repo opts]) = [] := by
      rw [printed_append, hp]; rfl
    cases hcall : client.ListByRepo owner repo opts with
    | error e =>
      rw [hcall] at h
      simp only [Option.some.injEq, Prod.mk.injEq] at h
      rw [← h.2]; exact hp'
    | ok res =>
      obtain ⟨issues, resp⟩ := res
      rw [hcall] at h
      simp only at h
      by_cases hn : resp.NextPage = 0
      · rw [if_pos hn] at h
        simp only [Option.some.injEq, Prod.mk.injEq] at h
        rw [← h.2]; exact hp'
      · rw [if_neg hn] at h
        exact ih _ _ _ r ev' h hp'

theorem addVotingComment_printed (client : Client) (owner repo : String) (issue : Issue) :
    printed (addVotingComment client owner repo issue).2 = [] := by
  unfold addVotingComment
  simp only
  cases client.ListComments owner repo issue.Number { Page := 0, PerPage := 100 } with
  | error e => rfl
  | ok comments =>
    simp only
    split_ifs
    · rfl
    · cases client.CreateComment owner repo issue.Number commentBody <;> rfl

theorem addVotingComments_printed (client : Client) (owner repo : String)
    (issues : List Issue) : printed (addVotingComments client owner repo issues) = [] := by
  induction issues with
  | nil => rfl
  | cons issue rest ih =>
    simp only [addVotingComments, printed_append, ih, addVotingComment_printed]
    cases (addVotingComment client owner repo issue).1 <;> rfl

theorem countVotesScan_printed (client : Client) (owner repo : String)
    (comments : List IssueComment) :
    printed (countVotesScan client owner repo comments).2 = [] := by
  induction comments with
  | nil => rfl
  | cons c rest ih =>
    simp only [countVotesScan]
    split_ifs
    · cases client.ListIssueCommentReactions owner repo c.ID { Page := 0, PerPage := 100 } <;> rfl
    · exact ih

theorem countVotes_printed (client : Client) (owner repo : String) (issue : Issue) :
    printed (countVotes client owner repo issue).2 = [] := by
  unfold countVotes
  simp only
  cases client.ListComments owner repo issue.Number { Page := 0, PerPage := 100 } with
  | error e => rfl
  | ok comments =>
    simp only [printed_append, countVotesScan_printed]
    rfl

theorem countAllVotes_printed (client : Client) (owner repo : String) (issues : List Issue) :
    ∀ (acc : List issueVote) (ev : List Event), printed ev = [] →
      printed (countAllVotes client owner repo issues acc ev).2 = [] := by
  induction issues with
  | nil => intro acc ev h; exact h
  | cons issue rest ih =>
    intro acc ev h
    simp only [countAllVotes]
    apply ih
    simp only [printed_append, h, countVotes_printed]
    cases (countVotes client owner repo issue).1 <;> rfl

/-- Claim C9 (as stated) fails on an empty topic fetch: both flows return without
error and have printed nothing. -/
theorem flows_print_nothing_on_empty_fetch :
    (∃ ev, startVoting emptyClient "o" "r" "" 1 = some (.ok (), ev) ∧ printed ev = []) ∧
      (∃ ev, closeVoting emptyClient "o" "r" "" 1 = some (.ok (), ev) ∧ printed ev = []) :=
  ⟨⟨_, rfl, rfl⟩, ⟨_, rfl, rfl⟩⟩

/-- Claim C9 (amended): when the topic fetch succeeds with at least one topic,
`startVoting` and `closeVoting` return without error and what they have printed
is their rendered document framed by their delimiter lines (for `closeVoting`
the document of the ranked tallies); when the fetch succeeds with no topic they
return without error after logging that no open issue was found, and have
printed nothing. -/
theorem flows_print_framed_document (client : Client) (owner repo label : String)
    (fuel : Nat) (issues : List Issue) (ev0 : List Event)
    (hfetch : getOpenIssues client owner repo label fuel = some (.ok issues, ev0)) :
    (issues ≠ [] →
      (∃ ev, startVoting client owner repo label fuel = some (.ok (), ev) ∧
        printed ev =
          ["\n=== DISCUSSION CONTENT ===",
           "Create a new discussion with the following content:",
           "Title: Hackathon Topic Voting",
           "\nBody:",
           createTopicsListMarkdown owner repo issues,
           "=== END DISCUSSION CONTENT ==="]) ∧
      (∃ ev ranked, closeVoting client owner repo label fuel = some (.ok (), ev) ∧
        rankIssueVotes (issues.map (tallyOf client owner repo)) = some ranked ∧
        printed ev =
          ["\n=== VOTING RESULTS ===",
           "Update the discussion with the following content:",
           "\nRanked Topics:",
           createRankedListMarkdown owner repo ranked,
           "=== END VOTING RESULTS ==="])) ∧
    (issues = [] →
      startVoting client owner repo label fuel =
          some (.ok (), ev0 ++ [Event.log "No open issues found with the specified label"]) ∧
        closeVoting client owner repo label fuel =
          some (.ok (), ev0 ++ [Event.log "No open issues found with the specified label"]) ∧
        printed (ev0 ++ [Event.log "No open issues found with the specified label"]) = []) := by
  have hp0 : printed ev0 = [] :=
    getOpenIssuesLoop_printed client owner repo fuel _ [] [] _ ev0 hfetch rfl
  constructor
  · intro hne
    have hlen : ¬ issues.length = 0 := by
      intro h; exact hne (List.length_eq_zero.1 h)
    constructor
    · refine ⟨_, by simp only [startVoting, hfetch, if_neg hlen]; rfl, ?_⟩
      simp only [printed_append, hp0, addVotingComments_printed]
      rfl
    · obtain ⟨ranked, hr, _, _⟩ :=
        sortSlice_spec moreVotes_rank (issues.map (tallyOf client owner repo))
      have hr : rankIssueVotes (issues.map (tallyOf client owner repo)) = some ranked := hr
      have htally := countAllVotes_tallies client owner repo issues []
        (ev0 ++ [Event.log ("Found " ++ fmtD issues.length ++ " open issues")])
      rw [List.nil_append] at htally
      refine ⟨(countAllVotes client owner repo issues []
          (ev0 ++ [Event.log ("Found " ++ fmtD issues.length ++ " open issues")])).2 ++
        votingResults (createRankedListMarkdown owner repo ranked), ranked, ?_, hr, ?_⟩
      · simp only [closeVoting, hfetch, if_neg hlen, htally, hr]
      · rw [printed_append, countAllVotes_printed]
        · rfl
        · rw [printed_append, hp0]; rfl
  · intro he
    subst he
    refine ⟨by simp [startVoting, hfetch], by simp [closeVoting, hfetch], ?_⟩
    rw [printed_append, hp0]; rfl

/-- The amended claim C9 at `twoPageClient`: `startVoting` prints the framed
topics list of the two fetched issues. -/
theorem flows_print_framed_document_witness :
    (∃ ev0, getOpenIssues twoPageClient "o" "r" "hack" 2 = some (.ok twoPageIssues, ev0)) ∧
      twoPageIssues ≠ [] ∧
      (∃ ev, startVoting twoPageClient "o" "r" "hack" 2 = some (.ok (), ev) ∧
        printed ev =
          ["\n=== DISCUSSION CONTENT ===",
           "Create a new discussion with the following content:",
           "Title: Hackathon Topic Voting",
           "\nBody:",
           createTopicsListMarkdown "o" "r" twoPageIssues,
           "=== END DISCUSSION CONTENT ==="]) :=
  ⟨⟨_, rfl⟩, by decide,
    ((flows_print_framed_document twoPageClient "o" "r" "hack" 2 twoPageIssues _ rfl).1
      (by decide)).1⟩

/-! ### `createRankedListMarkdown` -/

theorem string_foldl_append (l : List String) (acc : String) :
    l.foldl (fun r s => r ++ s) acc = acc ++ l.foldl (fun r s => r ++ s) "" := by
  induction l generalizing acc with
  | nil => simp
  | cons x rest ih =>
    simp only [List.foldl_cons]
    rw [ih (acc ++ x), ih ("" ++ x), String.empty_append, String.append_assoc]

theorem string_join_cons (x : String) (l : List String) :
    String.join (x :: l) = x ++ String.join l := by
  unfold String.join
  simp only [List.foldl_cons]
  rw [string_foldl_append, String.empty_append]

theorem rankedRowsLoop_eq (owner repo : String) (issueVotes : List issueVote) :
    ∀ (i : Nat) (sb : String),
      rankedRowsLoop owner repo issueVotes i sb =
        sb ++ String.join ((issueVotes.enumFrom i).map
          (fun p => rankedRow owner repo p.1 p.2)) := by
  induction issueVotes with
  | nil => intro i sb; simp [rankedRowsLoop, String.join]
  | cons iv rest ih =>
    intro i sb
    simp only [rankedRowsLoop, List.enumFrom_cons, List.map_cons]
    rw [ih, string_join_cons, String.append_assoc]

theorem medal_pos_iff (i : Nat) : medal i ≠ "" ↔ i < 3 := by
  match i with
  | 0 => exact ⟨fun _ => by omega, fun _ => by decide⟩
  | 1 => exact ⟨fun _ => by omega, fun _ => by decide⟩
  | 2 => exact ⟨fun _ => by omega, fun _ => by decide⟩
  | n + 3 => exact ⟨fun h => absurd rfl h, fun h => by omega⟩

/-- Claim C10: `createRankedListMarkdown` writes, between its header and footer,
exactly one table row per tally in input order; the row at 0-based position `i`
shows rank `i + 1`, the topic number and title linked to
`https://github.com/<owner>/<repo>/issues/<number>` and the vote count, with a
medal marker exactly when `i < 3`, a different one for each of positions 0, 1, 2. -/
theorem createRankedListMarkdown_rows (owner repo : String) (issueVotes : List issueVote) :
    createRankedListMarkdown owner repo issueVotes =
        rankedHeader ++
          String.join (issueVotes.enum.map (fun p => rankedRow owner repo p.1 p.2)) ++
          rankedFooter ∧
      (issueVotes.enum.map (fun p => rankedRow owner repo p.1 p.2)).length = issueVotes.length ∧
      (∀ (i : Nat) (iv : issueVote),
        rankedRow owner repo i iv =
          "| " ++ medal i ++ toString (i + 1) ++ " | [#" ++ toString iv.issue.Number ++ " - " ++
            iv.issue.Title ++ "](https://github.com/" ++ owner ++ "/" ++ repo ++ "/issues/" ++
            toString iv.issue.Number ++ ") | " ++ toString iv.votes ++ " |\n") ∧
      (∀ i, medal i ≠ "" ↔ i < 3) ∧
      medal 0 ≠ medal 1 ∧ medal 0 ≠ medal 2 ∧ medal 1 ≠ medal 2 := by
  refine ⟨?_, by simp, fun i iv => ?_, medal_pos_iff, by decide, by decide, by decide⟩
  · unfold createRankedListMarkdown
    rw [rankedRowsLoop_eq]
    rfl
  · simp only [rankedRow, fmtD]
    rfl

/-- The rendering scenario of the specification: Beta (5 votes), Gamma (5 votes),
Alpha (2 votes) are listed with ranks 1, 2, 3. -/
theorem createRankedListMarkdown_scenario :
    createRankedListMarkdown "o" "r"
        [{ issue := { Number := 2, Title := "Beta", PullRequestLinks := none }, votes := 5 },
         { issue := { Number := 3, Title := "Gamma", PullRequestLinks := none }, votes := 5 },
         { issue := { Number := 1, Title := "Alpha", PullRequestLinks := none }, votes := 2 }] =
      rankedHeader ++
        ("| " ++ medal 0 ++ "1 | [#2 - Beta](https://github.com/o/r/issues/2) | 5 |\n") ++
        ("| " ++ medal 1 ++ "2 | [#3 - Gamma](https://github.com/o/r/issues/3) | 5 |\n") ++
        ("| " ++ medal 2 ++ "3 | [#1 - Alpha](https://github.com/o/r/issues/1) | 2 |\n") ++
        rankedFooter := by
  decide

end Proofs

end Voting
